import Mathlib

/-!
Shallow embedding of the request cache / rate limiter / guest quota gate of
`src/script.js` (the `APIManager`, `Security.rateLimiter` and `GuestLimit`
objects), together with proofs about the embedded operations.

Conventions:
* JavaScript `Map` objects are embedded as association lists in insertion
  order (`JsMap` below): `Map.set` of a present key updates the value in
  place without moving the key, `Map.set` of a fresh key appends at the end,
  and `Map.prototype.keys().next().value` is the key of the head.
* `Date.now()` values are `Int` milliseconds and are passed explicitly
  (`now` parameters) instead of being read from an ambient clock.
* JSON payloads (what `response.json()` yields and what callers pass as the
  `options` object) are the inductive `Json`; JavaScript truthiness of such
  a value is `Json.truthy`.
* The asynchronous `APIManager.fetch` is split at its suspension points:
  `fetchStep` is the synchronous prologue that runs before the function
  first suspends (cache lookup, pending-request lookup, issuing the
  transport call and registering the pending promise), and `settle` is the
  synchronous epilogue that runs when the awaited transport settles
  (caching on success, removing the pending entry, producing the caller's
  outcome).  The event loop is single threaded, so every observable
  interleaving is a sequence of these two atomic steps.
* `transportCount` instruments the state with the number of times the
  underlying `fetch` transport primitive has been invoked, so that
  "invokes the network a second time" becomes a provable statement.
-/

/-- A decoded JSON value, as produced by `response.json()` and as passed in
the `options` argument of `APIManager.fetch`.  Object fields are kept in
property insertion order, which is the order `JSON.stringify` serializes. -/
inductive Json where
  | null
  | bool (b : Bool)
  | num (n : Int)
  | str (s : String)
  | arr (elems : List Json)
  | obj (fields : List (String × Json))

/-- JavaScript truthiness of a JSON value: `null`, `false`, `0` and the
empty string are falsy; every other JSON value (including every array and
object) is truthy. -/
def Json.truthy : Json → Bool
  | .null => false
  | .bool b => b
  | .num n => decide (n ≠ 0)
  | .str s => decide (s ≠ "")
  | .arr _ => true
  | .obj _ => true

/-- Escaping of one character inside a JSON string literal, as
`JSON.stringify` performs it for the characters that occur in this
development (quote and backslash). -/
def escapeChar (c : Char) : String :=
  if c = '"' then "\\\"" else if c = '\\' then "\\\\" else c.toString

/-- Escaping of the characters of a JSON string literal, as a character
list (the concatenation of `escapeChar` on every character). -/
def escapeChars : List Char → List Char
  | [] => []
  | c :: cs => (escapeChar c).data ++ escapeChars cs

/-- Escaping of the characters of a JSON string literal. -/
def escapeString (s : String) : String :=
  ⟨escapeChars s.data⟩

/-- A JSON string literal: the escaped contents between double quotes. -/
def quoteStr (s : String) : String :=
  "\"" ++ escapeString s ++ "\""

mutual

/-- Model of `JSON.stringify` on decoded JSON values.  Object properties are
serialized in insertion order — `JSON.stringify` performs no key sorting, a
fact the cache-key theorems below depend on. -/
def jsonStringify : Json → String
  | .null => "null"
  | .bool true => "true"
  | .bool false => "false"
  | .num n => toString n
  | .str s => quoteStr s
  | .arr elems => "[" ++ stringifyElems elems ++ "]"
  | .obj fields => "\x7b" ++ stringifyFields fields ++ "\x7d"

/-- Comma-separated serialization of the elements of a JSON array. -/
def stringifyElems : List Json → String
  | [] => ""
  | [x] => jsonStringify x
  | x :: y :: xs => jsonStringify x ++ "," ++ stringifyElems (y :: xs)

/-- Comma-separated serialization of the properties of a JSON object, in
insertion order. -/
def stringifyFields : List (String × Json) → String
  | [] => ""
  | [(k, v)] => quoteStr k ++ ":" ++ jsonStringify v
  | (k, v) :: f :: fs =>
      quoteStr k ++ ":" ++ jsonStringify v ++ "," ++ stringifyFields (f :: fs)

end

namespace JsMap

/-- `Map.prototype.get`: the value stored at `k`, looking from the front. -/
def get? {α : Type} (m : List (String × α)) (k : String) : Option α :=
  match m with
  | [] => none
  | (k', v) :: rest => if k' = k then some v else get? rest k

/-- `Map.prototype.set`: update the value in place when the key is present
(the key keeps its insertion position), append at the end otherwise. -/
def set {α : Type} (m : List (String × α)) (k : String) (v : α) :
    List (String × α) :=
  match m with
  | [] => [(k, v)]
  | (k', v') :: rest =>
      if k' = k then (k, v) :: rest else (k', v') :: set rest k v

/-- `Map.prototype.delete`: remove the entry for `k` when present. -/
def delete {α : Type} (m : List (String × α)) (k : String) :
    List (String × α) :=
  match m with
  | [] => []
  | (k', v) :: rest => if k' = k then rest else (k', v) :: delete rest k

/-- `Map.prototype.has`. -/
def has {α : Type} (m : List (String × α)) (k : String) : Bool :=
  (get? m k).isSome

/-- The keys of the map, in insertion order. -/
def keys {α : Type} (m : List (String × α)) : List String :=
  m.map Prod.fst

end JsMap

namespace APIManager

/-- `CACHE_TTL: 5 * 60 * 1000` — five minutes, in milliseconds. -/
def CACHE_TTL : Int := 5 * 60 * 1000

/-- One value of the `cache` map: `\x7b data, timestamp: Date.now() \x7d`. -/
structure CacheEntry where
  data : Json
  timestamp : Int

/-- The cache key of `APIManager.fetch`:
`const cacheKey = url + JSON.stringify(options)`.  The `options` argument is
an object literal, here its field list in property insertion order. -/
def cacheKey (url : String) (options : List (String × Json)) : String :=
  url ++ jsonStringify (.obj options)

/-- `APIManager.getCache(key)`: return the cached data while the entry is
younger than `CACHE_TTL`; otherwise delete the entry and return `null`.
Returns the value (`none` embeds `null`) together with the updated cache. -/
def getCache (cache : List (String × CacheEntry)) (key : String) (now : Int) :
    Option Json × List (String × CacheEntry) :=
  match JsMap.get? cache key with
  | some entry =>
      if now - entry.timestamp < CACHE_TTL then (some entry.data, cache)
      else (none, JsMap.delete cache key)
  | none => (none, JsMap.delete cache key)

/-- The size-limiting step of `APIManager.setCache`: when the map has grown
past 50 entries, delete the first-inserted key
(`this.cache.keys().next().value`). -/
def evictOldest (c : List (String × CacheEntry)) : List (String × CacheEntry) :=
  if c.length > 50 then
    match c with
    | [] => []
    | (oldest, _) :: _ => JsMap.delete c oldest
  else c

/-- `APIManager.setCache(key, data)`: store the entry, then apply the size
limit to the updated map. -/
def setCache (cache : List (String × CacheEntry)) (key : String) (data : Json)
    (now : Int) : List (String × CacheEntry) :=
  evictOldest (JsMap.set cache key ⟨data, now⟩)

/-- The mutable module-level state of `APIManager`, instrumented with a
fresh-promise counter (`nextId` names the promise a new request creates)
and with the number of transport invocations performed so far. -/
structure State where
  cache : List (String × CacheEntry)
  pendingRequests : List (String × Nat)
  nextId : Nat
  transportCount : Nat

/-- The state at page load: both maps empty. -/
def initState : State :=
  { cache := [], pendingRequests := [], nextId := 0, transportCount := 0 }

/-- What the synchronous prologue of one `APIManager.fetch(url, options)`
call does for its caller. -/
inductive FetchOutcome where
  /-- The truthy cached value was returned with no network access. -/
  | cached (value : Json)
  /-- The caller was handed the already-pending promise `id`. -/
  | attached (id : Nat)
  /-- A new transport call was issued under promise `id`. -/
  | started (id : Nat)

/-- The synchronous prologue of `APIManager.fetch(url, options)`: compute the
cache key, consult `getCache` (note the source tests the result with `if
(cached)`, JavaScript truthiness, not a null check), then either return the
cached value, attach to the pending promise, or invoke the transport and
register a new pending promise.  All of this runs before the first `await`,
so it is one atomic step of the event loop. -/
def fetchStep (s : State) (url : String) (options : List (String × Json))
    (now : Int) : FetchOutcome × State :=
  let key := cacheKey url options
  let res := getCache s.cache key now
  let s := { s with cache := res.2 }
  match res.1 with
  | some v =>
      if v.truthy then (.cached v, s)
      else fetchMiss s key
  | none => fetchMiss s key
where
  /-- The path taken when `if (cached)` failed: attach to a pending request
  when one exists, otherwise invoke the transport and register the promise. -/
  fetchMiss (s : State) (key : String) : FetchOutcome × State :=
    match JsMap.get? s.pendingRequests key with
    | some id => (.attached id, s)
    | none =>
        (.started s.nextId,
          { s with
            pendingRequests := JsMap.set s.pendingRequests key s.nextId,
            nextId := s.nextId + 1,
            transportCount := s.transportCount + 1 })

/-- An HTTP response as the transport delivers it: numeric status and the
JSON-decoded body. -/
structure HttpResponse where
  status : Nat
  body : Json

/-- `response.ok`: status in the range 200–299. -/
def HttpResponse.ok (r : HttpResponse) : Bool :=
  decide (200 ≤ r.status) && decide (r.status < 300)

/-- How the awaited transport call settles: a response arrived, the
10-second `AbortSignal.timeout` fired, or the transport failed outright. -/
inductive TransportResult where
  | response (r : HttpResponse)
  | timeout
  | networkError

/-- Whether the transport result makes the request promise reject:
a non-2xx response (`if (!response.ok) throw`), a timeout, or a
transport-level error. -/
def TransportResult.failed : TransportResult → Bool
  | .response r => !r.ok
  | .timeout => true
  | .networkError => true

/-- The failure a rejected request promise carries. -/
inductive NetworkFailure where
  /-- `new Error` built from the non-2xx status (`HTTP $\x7bresponse.status\x7d`). -/
  | httpError (status : Nat)
  /-- The `AbortSignal.timeout(10000)` abort. -/
  | timeout
  /-- A transport-level error from the underlying call. -/
  | transportError
deriving DecidableEq

/-- What a caller holding the request promise observes when it settles. -/
inductive FetchResult where
  | success (value : Json)
  | failure (f : NetworkFailure)

/-- The synchronous epilogue of the request promise for `key` once the
awaited transport settles: on a 2xx response cache the body and resolve
with it; otherwise reject with the corresponding failure; in every case the
`finally` block deletes the pending entry.  `setCache` and the `finally`
deletion run with no suspension point between them, so this too is one
atomic step. -/
def settle (s : State) (key : String) (result : TransportResult) (now : Int) :
    FetchResult × State :=
  match result with
  | .response r =>
      if r.ok then
        (.success r.body,
          { s with
            cache := setCache s.cache key r.body now,
            pendingRequests := JsMap.delete s.pendingRequests key })
      else
        (.failure (.httpError r.status),
          { s with pendingRequests := JsMap.delete s.pendingRequests key })
  | .timeout =>
      (.failure .timeout,
        { s with pendingRequests := JsMap.delete s.pendingRequests key })
  | .networkError =>
      (.failure .transportError,
        { s with pendingRequests := JsMap.delete s.pendingRequests key })

/-- `n` successive `fetch(url, options)` prologues, all issued before the
transport settles (the fan-in scenario): returns every caller's outcome in
order, with the final state. -/
def fanIn (s : State) (url : String) (options : List (String × Json))
    (now : Int) : Nat → List FetchOutcome × State
  | 0 => ([], s)
  | n + 1 =>
      let (out, s') := fetchStep s url options now
      let (outs, s'') := fanIn s' url options now n
      (out :: outs, s'')

end APIManager

namespace Security

namespace rateLimiter

/-- One step of `Security.rateLimiter.check(action, maxPerMinute)` over the
module-level `actions` map (action name to its recorded timestamps): create
the entry lazily, drop timestamps `t` with `now - t >= 60000`, deny without
recording when the surviving count reaches `maxPerMinute`, otherwise record
`now` and permit.  The pruned list is stored back in both branches. -/
def check (actions : List (String × List Int)) (action : String)
    (maxPerMinute : Nat) (now : Int) : Bool × List (String × List Int) :=
  let ts := (JsMap.get? actions action).getD []
  let ts := ts.filter (fun t => now - t < 60000)
  if ts.length ≥ maxPerMinute then (false, JsMap.set actions action ts)
  else (true, JsMap.set actions action (ts ++ [now]))

/-- A sequence of `check` calls on one action at the given instants, from a
given `actions` map: every call's boolean result in order, with the final
map. -/
def runChecks (actions : List (String × List Int)) (action : String)
    (maxPerMinute : Nat) : List Int → List Bool × List (String × List Int)
  | [] => ([], actions)
  | now :: rest =>
      let r := check actions action maxPerMinute now
      let rs := runChecks r.2 action maxPerMinute rest
      (r.1 :: rs.1, rs.2)

end rateLimiter

end Security

namespace GuestLimit

/-- `const GUEST_SEARCH_LIMIT = 3`. -/
def GUEST_SEARCH_LIMIT : Nat := 3

/-- `const STORAGE_KEY_SEARCHES = 'smartdeals_guest_searches'`. -/
def STORAGE_KEY_SEARCHES : String := "smartdeals_guest_searches"

/-- `const STORAGE_KEY_DATE = 'smartdeals_search_date'`. -/
def STORAGE_KEY_DATE : String := "smartdeals_search_date"

/-- The `localStorage` slots this component touches, plus a `broken` flag:
when `broken` is set, every `getItem`/`setItem` call throws (storage
blocked or disabled), which is the failure mode the `try/catch` blocks in
the source guard against. -/
structure LocalStorage where
  broken : Bool
  date : Option String
  searches : Option String
deriving DecidableEq

/-- `localStorage.getItem(key)`: throws when storage is unavailable,
otherwise yields the stored string or `null` (embedded as `none`). -/
def getItem (ls : LocalStorage) (key : String) : Except Unit (Option String) :=
  if ls.broken then .error ()
  else if key = STORAGE_KEY_DATE then .ok ls.date
  else if key = STORAGE_KEY_SEARCHES then .ok ls.searches
  else .ok none

/-- `localStorage.setItem(key, value)`: throws when storage is unavailable,
otherwise stores the string. -/
def setItem (ls : LocalStorage) (key : String) (value : String) :
    Except Unit LocalStorage :=
  if ls.broken then .error ()
  else if key = STORAGE_KEY_DATE then .ok { ls with date := some value }
  else if key = STORAGE_KEY_SEARCHES then .ok { ls with searches := some value }
  else .ok ls

/-- A JavaScript number as this component computes with it: either `NaN`
(what `parseInt` yields on a string with no leading integer) or an integer. -/
inductive JSNum where
  | nan
  | val (n : Int)
deriving DecidableEq

/-- `parseInt(s)` on the decimal strings this component stores: skip leading
spaces, accept an optional sign, then parse the longest leading run of
digits; `NaN` when that run is empty.  (The hexadecimal `0x` form of
`parseInt` is never reachable here: the stored strings are outputs of
`Number.prototype.toString` or the literal `'0'`.) -/
def parseIntJS (s : String) : JSNum :=
  let chars := s.toList.dropWhile (· = ' ')
  let signed : Bool × List Char :=
    match chars with
    | '-' :: rest => (true, rest)
    | '+' :: rest => (false, rest)
    | rest => (false, rest)
  let digits := signed.2.takeWhile Char.isDigit
  if digits.isEmpty then .nan
  else
    let mag : Nat := digits.foldl (fun acc c => acc * 10 + (c.toNat - 48)) 0
    .val (if signed.1 then -(mag : Int) else (mag : Int))

/-- JavaScript `x + 1` on a number: `NaN` propagates. -/
def JSNum.addOne : JSNum → JSNum
  | .nan => .nan
  | .val n => .val (n + 1)

/-- JavaScript `x < m` on a number and an integer bound: comparisons with
`NaN` are false. -/
def JSNum.ltNat : JSNum → Nat → Bool
  | .nan, _ => false
  | .val n, m => decide (n < (m : Int))

/-- `Number.prototype.toString` for the numbers this component stores. -/
def JSNum.toStr : JSNum → String
  | .nan => "NaN"
  | .val n => toString n

/-- JavaScript `Math.max(0, x)`: `NaN` propagates. -/
def JSNum.max0 : JSNum → JSNum
  | .nan => .nan
  | .val n => .val (max 0 n)

/-- JavaScript `m - x` on an integer and a number: `NaN` propagates. -/
def JSNum.subFrom (m : Int) : JSNum → JSNum
  | .nan => .nan
  | .val n => .val (m - n)

/-- `x || '0'` on a stored string-or-null: `null` and the empty string are
falsy and fall through to `'0'`. -/
def jsOrZero : Option String → String
  | none => "0"
  | some s => if s = "" then "0" else s

/-- The `try` block of `GuestLimit.getSearchCount` (with `today` being
`new Date().toDateString()`): when the stored date differs from today,
store today's date and the count `'0'` and yield 0; otherwise parse the
stored count. -/
def getSearchCountRaw (today : String) (ls : LocalStorage) :
    Except Unit (JSNum × LocalStorage) :=
  match getItem ls STORAGE_KEY_DATE with
  | .error e => .error e
  | .ok storedDate =>
      if storedDate ≠ some today then
        match setItem ls STORAGE_KEY_DATE today with
        | .error e => .error e
        | .ok ls1 =>
            match setItem ls1 STORAGE_KEY_SEARCHES "0" with
            | .error e => .error e
            | .ok ls2 => .ok (.val 0, ls2)
      else
        match getItem ls STORAGE_KEY_SEARCHES with
        | .error e => .error e
        | .ok stored => .ok (parseIntJS (jsOrZero stored), ls)

/-- `GuestLimit.getSearchCount()`: the `try` block above with its
`catch (e) \x7b return 0 \x7d` handler.  (When storage is broken every
storage call throws, so the caught state is the unmutated one.) -/
def getSearchCount (today : String) (ls : LocalStorage) :
    JSNum × LocalStorage :=
  match getSearchCountRaw today ls with
  | .ok r => r
  | .error _ => (.val 0, ls)

/-- The `try` block of `GuestLimit.incrementCount`: recompute today's count,
add one, store it back as a string, and yield the new count. -/
def incrementCountRaw (today : String) (ls : LocalStorage) :
    Except Unit (JSNum × LocalStorage) :=
  let r := getSearchCount today ls
  let count := r.1.addOne
  match setItem r.2 STORAGE_KEY_SEARCHES count.toStr with
  | .error e => .error e
  | .ok ls1 => .ok (count, ls1)

/-- `GuestLimit.incrementCount()`: the `try` block with its
`catch (e) \x7b return 0 \x7d` handler — on storage failure the increment is
swallowed and the sentinel 0 is returned. -/
def incrementCount (today : String) (ls : LocalStorage) :
    JSNum × LocalStorage :=
  match incrementCountRaw today ls with
  | .ok r => r
  | .error _ => (.val 0, ls)

/-- `GuestLimit.canSearch()`: `currentUser` truthy means unlimited; a guest
may search while today's count is below `GUEST_SEARCH_LIMIT`.  Total by
construction — every storage access sits under `getSearchCount`'s own
`try/catch`, so `canSearch` itself never throws. -/
def canSearch (today : String) (currentUser : Bool) (ls : LocalStorage) :
    Bool × LocalStorage :=
  if currentUser then (true, ls)
  else
    let (c, ls) := getSearchCount today ls
    (c.ltNat GUEST_SEARCH_LIMIT, ls)

/-- `GuestLimit.getRemainingSearches()`: `Infinity` (embedded as `none`) for
a logged-in user, `Math.max(0, GUEST_SEARCH_LIMIT - count)` for a guest. -/
def getRemainingSearches (today : String) (currentUser : Bool)
    (ls : LocalStorage) : Option JSNum × LocalStorage :=
  if currentUser then (none, ls)
  else
    let (c, ls) := getSearchCount today ls
    (some (JSNum.max0 (JSNum.subFrom (GUEST_SEARCH_LIMIT : Int) c)), ls)

end GuestLimit

namespace APIManager

/-- The value the `if (cached) return cached` test in `APIManager.fetch`
actually serves: the `getCache` result when that result is truthy, nothing
otherwise (a falsy cached value falls through to the network path). -/
def servedFromCache (cache : List (String × CacheEntry)) (key : String)
    (now : Int) : Option Json :=
  match (getCache cache key now).1 with
  | some v => if v.truthy then some v else none
  | none => none

end APIManager

/-- The string-literal phase of a character position in a JSON
serialization: outside every string literal, inside a string literal, or
inside a string literal immediately after an escaping backslash.  Used to
analyse collisions of the concatenated cache key
`url + JSON.stringify(options)`. -/
inductive Phase where
  | out
  | inn
  | esc
deriving DecidableEq

/-- The brace/bracket nesting contribution of a character read outside
every string literal. -/
def braceDelta (c : Char) : Int :=
  if c = '\x7b' ∨ c = '[' then 1
  else if c = '\x7d' ∨ c = ']' then -1
  else 0

/-- A character that a scan outside string literals passes over without
changing state: not a quote, not a backslash, not a brace or bracket. -/
def Inert (c : Char) : Prop :=
  c ≠ '"' ∧ c ≠ '\\' ∧ braceDelta c = 0

/-- One character step of the phase/balance scanner: `none` flags a
backslash read outside every string literal, which no `jsonStringify`
output contains. -/
def pstep : Phase × Int → Char → Option (Phase × Int)
  | (.out, b), c =>
      if c = '\\' then none
      else if c = '"' then some (.inn, b)
      else some (.out, b + braceDelta c)
  | (.inn, b), c =>
      if c = '"' then some (.out, b)
      else if c = '\\' then some (.esc, b)
      else some (.inn, b)
  | (.esc, b), _ => some (.inn, b)

/-- The phase/balance scanner over a character list. -/
def pscan : Phase × Int → List Char → Option (Phase × Int)
  | st, [] => some st
  | st, c :: cs =>
      match pstep st c with
      | none => none
      | some st2 => pscan st2 cs

/-- A character list that behaves like a complete JSON serialization under
the scanner: scanned from outside a string at any balance `b` it returns to
exactly that state, and every scanned prefix keeps the balance at `b` or
above. -/
def GoodChunk (cs : List Char) : Prop :=
  ∀ b : Int, pscan (.out, b) cs = some (.out, b) ∧
    ∀ p q st, cs = p ++ q → pscan (.out, b) p = some st → b ≤ st.2

/-- A character list that behaves like escaped string-literal content:
scanned from inside a string it ends inside the string with the balance
untouched, and every scanned prefix stays inside the string (possibly in
the escape state) with the balance untouched. -/
def GoodContent (cs : List Char) : Prop :=
  ∀ b : Int, pscan (.inn, b) cs = some (.inn, b) ∧
    ∀ p q st, cs = p ++ q → pscan (.inn, b) p = some st →
      (st.1 = Phase.inn ∨ st.1 = Phase.esc) ∧ st.2 = b

/-- The decimal digit characters. -/
def digitCharList : List Char :=
  ['0', '1', '2', '3', '4', '5', '6', '7', '8', '9']

/-- Two scans of the same characters whose string-literal phases are
exactly opposite: one outside a string where the other is inside. -/
def AntiSync (p q : Phase) : Prop :=
  (p = Phase.out ∧ q = Phase.inn) ∨ (p = Phase.inn ∧ q = Phase.out)


namespace JsMap

theorem get?_eq_none {α : Type} (m : List (String × α)) (k : String)
    (h : k ∉ keys m) : get? m k = none := by
  induction m with
  | nil => rfl
  | cons hd tl ih =>
      obtain ⟨k', v⟩ := hd
      simp only [keys, List.map_cons, List.mem_cons, not_or] at h
      simp only [get?, if_neg (Ne.symm h.1), ih (by simpa [keys] using h.2)]

theorem get?_set_self {α : Type} (m : List (String × α)) (k : String) (v : α) :
    get? (set m k v) k = some v := by
  induction m with
  | nil => simp [set, get?]
  | cons hd tl ih =>
      obtain ⟨k', v'⟩ := hd
      by_cases hk : k' = k
      · simp [set, get?, hk]
      · simp [set, get?, hk, ih]

theorem set_eq_append {α : Type} (m : List (String × α)) (k : String) (v : α)
    (h : k ∉ keys m) : set m k v = m ++ [(k, v)] := by
  induction m with
  | nil => rfl
  | cons hd tl ih =>
      obtain ⟨k', v'⟩ := hd
      simp only [keys, List.map_cons, List.mem_cons, not_or] at h
      simp [set, Ne.symm h.1, ih (by simpa [keys] using h.2)]

theorem delete_eq_self {α : Type} (m : List (String × α)) (k : String)
    (h : k ∉ keys m) : delete m k = m := by
  induction m with
  | nil => rfl
  | cons hd tl ih =>
      obtain ⟨k', v'⟩ := hd
      simp only [keys, List.map_cons, List.mem_cons, not_or] at h
      simp [delete, Ne.symm h.1, ih (by simpa [keys] using h.2)]

theorem get?_delete_self {α : Type} (m : List (String × α)) (k : String)
    (h : (keys m).Nodup) : get? (delete m k) k = none := by
  induction m with
  | nil => rfl
  | cons hd tl ih =>
      obtain ⟨k', v'⟩ := hd
      simp only [keys, List.map_cons, List.nodup_cons] at h
      by_cases hk : k' = k
      · subst hk
        simp only [delete, if_pos rfl]
        exact get?_eq_none tl k' h.1
      · simp only [delete, if_neg hk, get?, if_neg hk]
        exact ih h.2

theorem length_set_mem {α : Type} (m : List (String × α)) (k : String) (v : α)
    (h : k ∈ keys m) : (set m k v).length = m.length := by
  induction m with
  | nil => simp [keys] at h
  | cons hd tl ih =>
      obtain ⟨k', v'⟩ := hd
      by_cases hk : k' = k
      · simp [set, hk]
      · simp only [keys, List.map_cons, List.mem_cons] at h
        rcases h with h | h
        · exact absurd h.symm hk
        · simp [set, hk, ih (by simpa [keys] using h)]

theorem keys_set {α : Type} (m : List (String × α)) (k : String) (v : α) :
    keys (set m k v) = if k ∈ keys m then keys m else keys m ++ [k] := by
  induction m with
  | nil => simp [set, keys]
  | cons hd tl ih =>
      obtain ⟨k', v'⟩ := hd
      by_cases hk : k' = k
      · simp [set, keys, hk]
      · simp only [set, if_neg hk, keys, List.map_cons] at ih ⊢
        rw [ih]
        by_cases hm : k ∈ List.map Prod.fst tl
        · simp [hm, Ne.symm hk]
        · simp [hm, Ne.symm hk]

theorem keys_delete_sublist {α : Type} (m : List (String × α)) (k : String) :
    (keys (delete m k)).Sublist (keys m) := by
  induction m with
  | nil => simp [delete, keys]
  | cons hd tl ih =>
      obtain ⟨k', v'⟩ := hd
      by_cases hk : k' = k
      · simp only [delete, if_pos hk, keys, List.map_cons]
        exact (List.sublist_cons_self _ _)
      · simp only [delete, if_neg hk, keys, List.map_cons]
        exact ih.cons₂ _

theorem keys_nodup_set {α : Type} (m : List (String × α)) (k : String) (v : α)
    (h : (keys m).Nodup) : (keys (set m k v)).Nodup := by
  rw [keys_set]
  by_cases hm : k ∈ keys m
  · simpa [hm] using h
  · simp only [hm, if_false]
    refine List.Nodup.append h (List.nodup_singleton k) ?_
    intro a ha hak
    simp only [List.mem_singleton] at hak
    subst hak
    exact hm ha

theorem keys_nodup_delete {α : Type} (m : List (String × α)) (k : String)
    (h : (keys m).Nodup) : (keys (delete m k)).Nodup :=
  (keys_delete_sublist m k).nodup h

theorem get?_isSome_of_mem {α : Type} (m : List (String × α)) (k : String)
    (h : k ∈ keys m) : (get? m k).isSome := by
  induction m with
  | nil => simp [keys] at h
  | cons hd tl ih =>
      obtain ⟨k', v'⟩ := hd
      by_cases hk : k' = k
      · simp [get?, hk]
      · simp only [keys, List.map_cons, List.mem_cons] at h
        rcases h with h | h
        · exact absurd h.symm hk
        · simp only [get?, if_neg hk]
          exact ih (by simpa [keys] using h)

theorem get?_append_singleton {α : Type} (m : List (String × α)) (k : String)
    (v : α) (h : k ∉ keys m) : get? (m ++ [(k, v)]) k = some v := by
  induction m with
  | nil => simp [get?]
  | cons hd tl ih =>
      obtain ⟨k', v'⟩ := hd
      simp only [keys, List.map_cons, List.mem_cons, not_or] at h
      simp only [List.cons_append, get?, if_neg (Ne.symm h.1)]
      simpa using ih (by simpa [keys] using h.2)

end JsMap

namespace JsMap

theorem length_set_le {α : Type} (m : List (String × α)) (k : String) (v : α) :
    (set m k v).length ≤ m.length + 1 := by
  induction m with
  | nil => simp [set]
  | cons hd tl ih =>
      obtain ⟨k', v'⟩ := hd
      by_cases hk : k' = k
      · simp [set, hk]
      · simp only [set, if_neg hk, List.length_cons]
        omega

theorem keys_append {α : Type} (a b : List (String × α)) :
    keys (a ++ b) = keys a ++ keys b := by
  simp [keys]

end JsMap

namespace APIManager

theorem evictOldest_of_le (c : List (String × CacheEntry))
    (h : c.length ≤ 50) : evictOldest c = c := by
  have hx : ¬ c.length > 50 := by omega
  simp [evictOldest, hx]

theorem evictOldest_eq_tail (k0 : String) (v0 : CacheEntry)
    (tl : List (String × CacheEntry)) (h : tl.length + 1 > 50) :
    evictOldest ((k0, v0) :: tl) = tl := by
  have hgt : ((k0, v0) :: tl).length > 50 := by simpa using h
  have hcond : (50 : Nat) < tl.length + 1 := by omega
  simp [evictOldest, JsMap.delete, hcond]

theorem setCache_get?_self (cache : List (String × CacheEntry)) (key : String)
    (data : Json) (now : Int) (h : cache.length ≤ 50) :
    JsMap.get? (setCache cache key data now) key = some ⟨data, now⟩ := by
  unfold setCache
  by_cases h50 : (JsMap.set cache key ⟨data, now⟩).length ≤ 50
  · rw [evictOldest_of_le _ h50]
    exact JsMap.get?_set_self cache key ⟨data, now⟩
  · have hm : key ∉ JsMap.keys cache := by
      intro hmem
      exact h50 (by rw [JsMap.length_set_mem cache key ⟨data, now⟩ hmem]; exact h)
    have happ : JsMap.set cache key ⟨data, now⟩ = cache ++ [(key, ⟨data, now⟩)] :=
      JsMap.set_eq_append cache key ⟨data, now⟩ hm
    obtain ⟨⟨k0, v0⟩, tl, rfl⟩ : ∃ hd tl, cache = hd :: tl := by
      cases cache with
      | nil => rw [happ] at h50; simp at h50
      | cons hd tl => exact ⟨hd, tl, rfl⟩
    have harg : (tl ++ [(key, (⟨data, now⟩ : CacheEntry))]).length + 1 > 50 := by
      rw [happ] at h50
      simp only [List.cons_append, List.length_cons, List.length_append,
        List.length_singleton] at h50 ⊢
      omega
    rw [happ, List.cons_append, evictOldest_eq_tail k0 v0 _ harg]
    have hkey : key ∉ JsMap.keys tl := by
      intro hx
      exact hm (List.mem_cons_of_mem k0 hx)
    exact JsMap.get?_append_singleton tl key ⟨data, now⟩ hkey

theorem setCache_length_le (cache : List (String × CacheEntry)) (key : String)
    (data : Json) (now : Int) (h : cache.length ≤ 50) :
    (setCache cache key data now).length ≤ 50 := by
  unfold setCache
  have hle : (JsMap.set cache key ⟨data, now⟩).length ≤ cache.length + 1 :=
    JsMap.length_set_le cache key ⟨data, now⟩
  by_cases h50 : (JsMap.set cache key ⟨data, now⟩).length ≤ 50
  · rw [evictOldest_of_le _ h50]; exact h50
  · cases hc : JsMap.set cache key ⟨data, now⟩ with
    | nil => simp [evictOldest]
    | cons hd tl =>
        obtain ⟨k0, v0⟩ := hd
        rw [hc] at h50 hle
        simp only [List.length_cons] at h50 hle
        rw [evictOldest_eq_tail k0 v0 tl (by omega)]
        omega

theorem setCache_foldl_fresh (data : Json) (now : Int) :
    ∀ (ks : List String) (c : List (String × CacheEntry)), ks.Nodup →
      (∀ k ∈ ks, k ∉ JsMap.keys c) → c.length + ks.length ≤ 50 →
      ks.foldl (fun acc k => setCache acc k data now) c =
        c ++ ks.map (fun k => (k, (⟨data, now⟩ : CacheEntry))) := by
  intro ks
  induction ks with
  | nil => intro c _ _ _; simp
  | cons k ks ih =>
      intro c hnd hfresh hlen
      have hk : k ∉ JsMap.keys c := hfresh k (List.mem_cons_self k ks)
      have happ : JsMap.set c k ⟨data, now⟩ = c ++ [(k, ⟨data, now⟩)] :=
        JsMap.set_eq_append c k ⟨data, now⟩ hk
      have hstep : setCache c k data now = c ++ [(k, ⟨data, now⟩)] := by
        unfold setCache
        rw [happ]
        apply evictOldest_of_le
        simp at hlen ⊢
        omega
      have hfresh' : ∀ k' ∈ ks, k' ∉ JsMap.keys (c ++ [(k, ⟨data, now⟩)]) := by
        intro k' hk'
        rw [JsMap.keys_append]
        simp only [List.mem_append, not_or]
        constructor
        · exact hfresh k' (List.mem_cons_of_mem k hk')
        · have hne : k' ≠ k := by
            intro hEq
            subst hEq
            exact (List.nodup_cons.mp hnd).1 hk'
          simp [JsMap.keys, hne]
      have hlen' : (c ++ [(k, (⟨data, now⟩ : CacheEntry))]).length + ks.length ≤ 50 := by
        simp at hlen ⊢
        omega
      simp only [List.foldl_cons, hstep]
      rw [ih (c ++ [(k, (⟨data, now⟩ : CacheEntry))]) (List.Nodup.of_cons hnd)
        hfresh' hlen']
      simp

end APIManager

theorem string_append_left_cancel_iff (u a b : String) :
    u ++ a = u ++ b ↔ a = b := by
  constructor
  · intro h
    have hd := congrArg String.data h
    simp only [String.data_append] at hd
    exact String.ext (List.append_cancel_left hd)
  · intro h
    rw [h]

theorem string_append_right_cancel_iff (a b u : String) :
    a ++ u = b ++ u ↔ a = b := by
  constructor
  · intro h
    have hd := congrArg String.data h
    simp only [String.data_append] at hd
    exact String.ext (List.append_cancel_right hd)
  · intro h
    rw [h]

namespace APIManager

theorem fetchStep_hit (s : State) (url : String)
    (options : List (String × Json)) (now : Int) (entry : CacheEntry)
    (hget : JsMap.get? s.cache (cacheKey url options) = some entry)
    (hfresh : now - entry.timestamp < CACHE_TTL)
    (htruthy : entry.data.truthy = true) :
    fetchStep s url options now = (.cached entry.data, s) := by
  have hg : getCache s.cache (cacheKey url options) now =
      (some entry.data, s.cache) := by
    simp [getCache, hget, hfresh]
  simp [fetchStep, hg, htruthy]

theorem fetchStep_attach (s : State) (url : String)
    (options : List (String × Json)) (now : Int) (id : Nat)
    (hid : JsMap.get? s.pendingRequests (cacheKey url options) = some id)
    (hmiss : servedFromCache s.cache (cacheKey url options) now = none) :
    fetchStep s url options now =
      (.attached id,
        { s with cache := (getCache s.cache (cacheKey url options) now).2 }) := by
  unfold servedFromCache at hmiss
  cases hg : (getCache s.cache (cacheKey url options) now).1 with
  | none => simp [fetchStep, fetchStep.fetchMiss, hg, hid]
  | some v =>
      rw [hg] at hmiss
      have hv : v.truthy = false := by
        by_contra hvt
        rw [Bool.not_eq_false] at hvt
        simp [hvt] at hmiss
      simp [fetchStep, fetchStep.fetchMiss, hg, hv, hid]

theorem fetchStep_start (s : State) (url : String)
    (options : List (String × Json)) (now : Int)
    (hpend : JsMap.get? s.pendingRequests (cacheKey url options) = none)
    (hmiss : servedFromCache s.cache (cacheKey url options) now = none) :
    fetchStep s url options now =
      (.started s.nextId,
        { cache := (getCache s.cache (cacheKey url options) now).2,
          pendingRequests :=
            JsMap.set s.pendingRequests (cacheKey url options) s.nextId,
          nextId := s.nextId + 1,
          transportCount := s.transportCount + 1 }) := by
  unfold servedFromCache at hmiss
  cases hg : (getCache s.cache (cacheKey url options) now).1 with
  | none => simp [fetchStep, fetchStep.fetchMiss, hg, hpend]
  | some v =>
      rw [hg] at hmiss
      have hv : v.truthy = false := by
        by_contra hvt
        rw [Bool.not_eq_false] at hvt
        simp [hvt] at hmiss
      simp [fetchStep, fetchStep.fetchMiss, hg, hv, hpend]

theorem servedFromCache_of_not_mem (cache : List (String × CacheEntry))
    (key : String) (now : Int) (h : key ∉ JsMap.keys cache) :
    servedFromCache cache key now = none := by
  simp [servedFromCache, getCache, JsMap.get?_eq_none cache key h]

theorem getCache_snd_of_not_mem (cache : List (String × CacheEntry))
    (key : String) (now : Int) (h : key ∉ JsMap.keys cache) :
    (getCache cache key now).2 = cache := by
  simp [getCache, JsMap.get?_eq_none cache key h,
    JsMap.delete_eq_self cache key h]

theorem fetchStep_attach_stable (s : State) (url : String)
    (options : List (String × Json)) (now : Int) (id : Nat)
    (hid : JsMap.get? s.pendingRequests (cacheKey url options) = some id)
    (hkey : cacheKey url options ∉ JsMap.keys s.cache) :
    fetchStep s url options now = (.attached id, s) := by
  rw [fetchStep_attach s url options now id hid
    (servedFromCache_of_not_mem _ _ _ hkey)]
  rw [getCache_snd_of_not_mem _ _ _ hkey]

theorem fanIn_attached (url : String) (options : List (String × Json))
    (now : Int) : ∀ (n : Nat) (s : State) (id : Nat),
    JsMap.get? s.pendingRequests (cacheKey url options) = some id →
    cacheKey url options ∉ JsMap.keys s.cache →
    fanIn s url options now n =
      (List.replicate n (.attached id), s) := by
  intro n
  induction n with
  | zero => intro s id _ _; simp [fanIn]
  | succ n ih =>
      intro s id hid hkey
      simp only [fanIn, fetchStep_attach_stable s url options now id hid hkey,
        ih s id hid hkey, List.replicate_succ]

end APIManager


theorem pscan_append (st : Phase × Int) (a b : List Char) :
    pscan st (a ++ b) =
      match pscan st a with
      | none => none
      | some st2 => pscan st2 b := by
  induction a generalizing st with
  | nil => simp [pscan]
  | cons c cs ih =>
      simp only [List.cons_append, pscan]
      cases pstep st c with
      | none => rfl
      | some st2 => exact ih st2

theorem pstep_inert (b : Int) (c : Char) (h : Inert c) :
    pstep (Phase.out, b) c = some (Phase.out, b) := by
  obtain ⟨h1, h2, h3⟩ := h
  simp [pstep, h1, h2, h3]

theorem goodChunk_nil : GoodChunk [] := by
  intro b
  constructor
  · rfl
  · intro p q st hpq hscan
    have hp : p = [] := by
      cases p with
      | nil => rfl
      | cons x xs => simp at hpq
    subst hp
    simp only [pscan] at hscan
    injection hscan with h
    subst h
    exact le_refl b

theorem goodChunk_of_inert (cs : List Char) (h : ∀ c ∈ cs, Inert c) :
    GoodChunk cs := by
  induction cs with
  | nil => exact goodChunk_nil
  | cons c cs ih =>
      have hc : Inert c := h c (List.mem_cons_self c cs)
      have ihh := ih (fun c' hc' => h c' (List.mem_cons_of_mem c hc'))
      intro b
      obtain ⟨hfull, hpre⟩ := ihh b
      constructor
      · simp only [pscan, pstep_inert b c hc]
        exact hfull
      · intro p q st hpq hscan
        cases p with
        | nil =>
            simp only [pscan] at hscan
            injection hscan with hx
            subst hx
            exact le_refl b
        | cons p0 ps =>
            rw [List.cons_append] at hpq
            injection hpq with h1 h2
            subst h1
            simp only [pscan, pstep_inert b c hc] at hscan
            exact hpre ps q st h2 hscan

theorem goodChunk_append (x y : List Char) (hx : GoodChunk x)
    (hy : GoodChunk y) : GoodChunk (x ++ y) := by
  intro b
  obtain ⟨hxf, hxp⟩ := hx b
  obtain ⟨hyf, hyp⟩ := hy b
  constructor
  · rw [pscan_append, hxf]
    exact hyf
  · intro p q st hpq hscan
    rcases List.append_eq_append_iff.mp hpq with ⟨t, hpt, hyt⟩ | ⟨t, hxt, hqt⟩
    · rw [hpt, pscan_append, hxf] at hscan
      exact hyp t q st hyt hscan
    · exact hxp p t st hxt hscan

theorem pscan_cons_ok {st st1 : Phase × Int} {c : Char} (cs : List Char)
    (h : pstep st c = some st1) : pscan st (c :: cs) = pscan st1 cs := by
  simp only [pscan, h]

theorem pscan_append_ok {st st1 : Phase × Int} {a : List Char}
    (b : List Char) (h : pscan st a = some st1) :
    pscan st (a ++ b) = pscan st1 b := by
  rw [pscan_append, h]

theorem goodChunk_bracket (o c : Char) (inner : List Char)
    (hod : braceDelta o = 1) (ho1 : o ≠ '"') (ho2 : o ≠ '\\')
    (hcd : braceDelta c = -1) (hc1 : c ≠ '"') (hc2 : c ≠ '\\')
    (h : GoodChunk inner) : GoodChunk (o :: inner ++ [c]) := by
  intro b
  obtain ⟨hf, hp⟩ := h (b + 1)
  have hstepo : pstep (Phase.out, b) o = some (Phase.out, b + 1) := by
    simp [pstep, ho1, ho2, hod]
  have hstepc : pstep (Phase.out, b + 1) c = some (Phase.out, b) := by
    simp [pstep, hc1, hc2, hcd]
  constructor
  · rw [List.cons_append, pscan_cons_ok _ hstepo, pscan_append_ok _ hf,
      pscan_cons_ok _ hstepc]
    rfl
  · intro p q st hpq hscan
    cases p with
    | nil =>
        simp only [pscan] at hscan
        injection hscan with hx
        subst hx
        exact le_refl b
    | cons p0 ps =>
        rw [List.cons_append] at hpq
        injection hpq with h1 h2
        subst h1
        rw [pscan_cons_ok _ hstepo] at hscan
        rcases List.append_eq_append_iff.mp h2 with ⟨t, hpt, hyt⟩ | ⟨t, hxt, hqt⟩
        · rw [hpt, pscan_append_ok _ hf] at hscan
          cases t with
          | nil =>
              simp only [pscan] at hscan
              injection hscan with hx
              subst hx
              omega
          | cons t0 ts =>
              rw [List.cons_append] at hyt
              injection hyt with h3 h4
              subst h3
              have hts : ts = [] := by
                cases ts with
                | nil => rfl
                | cons a as => simp at h4
              subst hts
              rw [pscan_cons_ok _ hstepc] at hscan
              simp only [pscan] at hscan
              injection hscan with hx
              subst hx
              exact le_refl b
        · have := hp ps t st hxt hscan
          omega

theorem goodContent_nil : GoodContent [] := by
  intro b
  constructor
  · rfl
  · intro p q st hpq hscan
    have hp : p = [] := by
      cases p with
      | nil => rfl
      | cons x xs => simp at hpq
    subst hp
    simp only [pscan] at hscan
    injection hscan with h
    subst h
    exact ⟨Or.inl rfl, rfl⟩

theorem goodContent_append (x y : List Char) (hx : GoodContent x)
    (hy : GoodContent y) : GoodContent (x ++ y) := by
  intro b
  obtain ⟨hxf, hxp⟩ := hx b
  obtain ⟨hyf, hyp⟩ := hy b
  constructor
  · rw [pscan_append_ok _ hxf]
    exact hyf
  · intro p q st hpq hscan
    rcases List.append_eq_append_iff.mp hpq with ⟨t, hpt, hyt⟩ | ⟨t, hxt, hqt⟩
    · rw [hpt, pscan_append_ok _ hxf] at hscan
      exact hyp t q st hyt hscan
    · exact hxp p t st hxt hscan

theorem goodContent_pair (x : Char) : GoodContent ['\\', x] := by
  intro b
  have h1 : pstep (Phase.inn, b) '\\' = some (Phase.esc, b) := by
    simp [pstep]
  have h2 : pstep (Phase.esc, b) x = some (Phase.inn, b) := rfl
  constructor
  · rw [show (['\\', x] : List Char) = '\\' :: [x] from rfl,
      pscan_cons_ok _ h1, pscan_cons_ok _ h2]
    rfl
  · intro p q st hpq hscan
    cases p with
    | nil =>
        simp only [pscan] at hscan
        injection hscan with hh
        subst hh
        exact ⟨Or.inl rfl, rfl⟩
    | cons p0 ps =>
        rw [List.cons_append] at hpq
        injection hpq with e1 e2
        subst e1
        rw [pscan_cons_ok _ h1] at hscan
        cases ps with
        | nil =>
            simp only [pscan] at hscan
            injection hscan with hh
            subst hh
            exact ⟨Or.inr rfl, rfl⟩
        | cons p1 ps2 =>
            rw [List.cons_append] at e2
            injection e2 with e3 e4
            subst e3
            rw [pscan_cons_ok _ h2] at hscan
            cases ps2 with
            | nil =>
                simp only [pscan] at hscan
                injection hscan with hh
                subst hh
                exact ⟨Or.inl rfl, rfl⟩
            | cons a as => simp at e4

theorem goodContent_single (c : Char) (h1 : c ≠ '"') (h2 : c ≠ '\\') :
    GoodContent [c] := by
  intro b
  have hstep : pstep (Phase.inn, b) c = some (Phase.inn, b) := by
    simp [pstep, h1, h2]
  constructor
  · rw [show ([c] : List Char) = c :: [] from rfl, pscan_cons_ok _ hstep]
    rfl
  · intro p q st hpq hscan
    cases p with
    | nil =>
        simp only [pscan] at hscan
        injection hscan with hh
        subst hh
        exact ⟨Or.inl rfl, rfl⟩
    | cons p0 ps =>
        rw [List.cons_append] at hpq
        injection hpq with e1 e2
        subst e1
        rw [pscan_cons_ok _ hstep] at hscan
        cases ps with
        | nil =>
            simp only [pscan] at hscan
            injection hscan with hh
            subst hh
            exact ⟨Or.inl rfl, rfl⟩
        | cons a as => simp at e2

theorem goodContent_escapeChar (c : Char) :
    GoodContent (escapeChar c).data := by
  by_cases h1 : c = '"'
  · subst h1
    exact goodContent_pair '"'
  · by_cases h2 : c = '\\'
    · subst h2
      exact goodContent_pair '\\'
    · have hdata : (escapeChar c).data = [c] := by
        simp [escapeChar, h1, h2, Char.toString]
      rw [hdata]
      exact goodContent_single c h1 h2

theorem goodContent_escapeChars (s : List Char) :
    GoodContent (escapeChars s) := by
  induction s with
  | nil => exact goodContent_nil
  | cons c cs ih =>
      have hx : escapeChars (c :: cs) = (escapeChar c).data ++ escapeChars cs :=
        rfl
      rw [hx]
      exact goodContent_append _ _ (goodContent_escapeChar c) ih

theorem goodChunk_quoted (s : List Char) :
    GoodChunk ('"' :: escapeChars s ++ ['"']) := by
  intro b
  obtain ⟨hf, hp⟩ := goodContent_escapeChars s b
  have hopen : pstep (Phase.out, b) '"' = some (Phase.inn, b) := by
    simp [pstep]
  have hcloseInn : pstep (Phase.inn, b) '"' = some (Phase.out, b) := by
    simp [pstep]
  constructor
  · rw [List.cons_append, pscan_cons_ok _ hopen, pscan_append_ok _ hf,
      pscan_cons_ok _ hcloseInn]
    rfl
  · intro p q st hpq hscan
    cases p with
    | nil =>
        simp only [pscan] at hscan
        injection hscan with hx
        subst hx
        exact le_refl b
    | cons p0 ps =>
        rw [List.cons_append] at hpq
        injection hpq with h1 h2
        subst h1
        rw [pscan_cons_ok _ hopen] at hscan
        rcases List.append_eq_append_iff.mp h2 with ⟨t, hpt, hyt⟩ | ⟨t, hxt, hqt⟩
        · rw [hpt, pscan_append_ok _ hf] at hscan
          cases t with
          | nil =>
              simp only [pscan] at hscan
              injection hscan with hx
              subst hx
              exact le_refl b
          | cons t0 ts =>
              rw [List.cons_append] at hyt
              injection hyt with h3 h4
              subst h3
              have hts : ts = [] := by
                cases ts with
                | nil => rfl
                | cons a as => simp at h4
              subst hts
              rw [pscan_cons_ok _ hcloseInn] at hscan
              simp only [pscan] at hscan
              injection hscan with hx
              subst hx
              exact le_refl b
        · have := hp ps t st hxt hscan
          omega

theorem digitChar_mem (k : Nat) (h : k < 10) :
    Nat.digitChar k ∈ digitCharList := by
  interval_cases k <;> decide

theorem toDigitsCore_mem (fuel : Nat) :
    ∀ (n : Nat) (acc : List Char), (∀ c ∈ acc, c ∈ digitCharList) →
    ∀ c ∈ Nat.toDigitsCore 10 fuel n acc, c ∈ digitCharList := by
  induction fuel with
  | zero =>
      intro n acc hacc c hc
      simp only [Nat.toDigitsCore] at hc
      exact hacc c hc
  | succ fuel ih =>
      intro n acc hacc c hc
      simp only [Nat.toDigitsCore] at hc
      by_cases h0 : n / 10 = 0
      · rw [if_pos h0] at hc
        rcases List.mem_cons.mp hc with rfl | hc2
        · exact digitChar_mem _ (Nat.mod_lt _ (by norm_num))
        · exact hacc c hc2
      · rw [if_neg h0] at hc
        refine ih (n / 10) _ ?_ c hc
        intro c' hc'
        rcases List.mem_cons.mp hc' with rfl | hc2
        · exact digitChar_mem _ (Nat.mod_lt _ (by norm_num))
        · exact hacc c' hc2

theorem natRepr_chars (m : Nat) :
    ∀ c ∈ (Nat.repr m).data, c ∈ digitCharList := by
  intro c hc
  have hdata : (Nat.repr m).data = Nat.toDigitsCore 10 (m + 1) m [] := rfl
  rw [hdata] at hc
  exact toDigitsCore_mem (m + 1) m [] (by intro c' hc'; simp at hc') c hc

theorem intToString_chars (n : Int) :
    ∀ c ∈ (toString n).data, c = '-' ∨ c ∈ digitCharList := by
  cases n with
  | ofNat m =>
      intro c hc
      right
      have hdata : (toString (Int.ofNat m)).data = (Nat.repr m).data := rfl
      rw [hdata] at hc
      exact natRepr_chars m c hc
  | negSucc m =>
      intro c hc
      have hdata : (toString (Int.negSucc m)).data =
          '-' :: (Nat.repr (m + 1)).data := rfl
      rw [hdata] at hc
      rcases List.mem_cons.mp hc with rfl | hc2
      · exact Or.inl rfl
      · exact Or.inr (natRepr_chars (m + 1) c hc2)

theorem inert_digit (c : Char) (h : c ∈ digitCharList) : Inert c := by
  fin_cases h <;> exact ⟨by decide, by decide, by decide⟩

theorem inert_dash : Inert '-' := ⟨by decide, by decide, by decide⟩

theorem inert_colon : Inert ':' := ⟨by decide, by decide, by decide⟩

theorem inert_comma : Inert ',' := ⟨by decide, by decide, by decide⟩

theorem quoteStr_data (s : String) :
    (quoteStr s).data = '"' :: escapeChars s.data ++ ['"'] := rfl

theorem stringify_obj_data (fields : List (String × Json)) :
    (jsonStringify (Json.obj fields)).data =
      '\x7b' :: (stringifyFields fields).data ++ ['\x7d'] := rfl

theorem stringify_arr_data (elems : List Json) :
    (jsonStringify (Json.arr elems)).data =
      '[' :: (stringifyElems elems).data ++ [']'] := rfl

theorem stringifyElems_cons2_data (x y : Json) (ys : List Json) :
    (stringifyElems (x :: y :: ys)).data =
      (jsonStringify x).data ++ ([','] ++ (stringifyElems (y :: ys)).data) := by
  show ((jsonStringify x ++ ",") ++ stringifyElems (y :: ys)).data = _
  simp [String.data_append, List.append_assoc]

theorem stringifyFields_one_data (k : String) (v : Json) :
    (stringifyFields [(k, v)]).data =
      (quoteStr k).data ++ ([':'] ++ (jsonStringify v).data) := by
  show ((quoteStr k ++ ":") ++ jsonStringify v).data = _
  simp [String.data_append, List.append_assoc]

theorem stringifyFields_cons2_data (k : String) (v : Json)
    (f : String × Json) (fs : List (String × Json)) :
    (stringifyFields ((k, v) :: f :: fs)).data =
      (quoteStr k).data ++ ([':'] ++ ((jsonStringify v).data ++
        ([','] ++ (stringifyFields (f :: fs)).data))) := by
  show ((((quoteStr k ++ ":") ++ jsonStringify v) ++ ",") ++
    stringifyFields (f :: fs)).data = _
  simp [String.data_append, List.append_assoc]

theorem goodChunk_singleton_inert (c : Char) (h : Inert c) :
    GoodChunk [c] :=
  goodChunk_of_inert [c] (by intro c' hc'; simp at hc'; subst hc'; exact h)

theorem goodChunk_stringify_rec : ∀ (n : Nat),
    (∀ v : Json, sizeOf v ≤ n → GoodChunk (jsonStringify v).data) ∧
    (∀ l : List Json, sizeOf l ≤ n → GoodChunk (stringifyElems l).data) ∧
    (∀ l : List (String × Json), sizeOf l ≤ n →
      GoodChunk (stringifyFields l).data) := by
  intro n
  induction n with
  | zero =>
      refine ⟨?_, ?_, ?_⟩
      · intro v hv
        exact absurd hv (by cases v <;> simp)
      · intro l hl
        exact absurd hl (by cases l <;> simp)
      · intro l hl
        exact absurd hl (by cases l <;> simp)
  | succ n ih =>
      obtain ⟨ihJ, ihE, ihF⟩ := ih
      refine ⟨?_, ?_, ?_⟩
      · intro v hv
        cases v with
        | null =>
            refine goodChunk_of_inert _ ?_
            intro c hc
            fin_cases hc <;> exact ⟨by decide, by decide, by decide⟩
        | bool bb =>
            cases bb <;>
              · refine goodChunk_of_inert _ ?_
                intro c hc
                fin_cases hc <;> exact ⟨by decide, by decide, by decide⟩
        | num m =>
            refine goodChunk_of_inert _ ?_
            intro c hc
            rcases intToString_chars m c hc with rfl | h
            · exact inert_dash
            · exact inert_digit c h
        | str s =>
            have hdata : (jsonStringify (Json.str s)).data =
                '"' :: escapeChars s.data ++ ['"'] := rfl
            rw [hdata]
            exact goodChunk_quoted s.data
        | arr elems =>
            rw [stringify_arr_data]
            refine goodChunk_bracket '[' ']' _ (by decide) (by decide)
              (by decide) (by decide) (by decide) (by decide) ?_
            refine ihE elems ?_
            have hs : sizeOf (Json.arr elems) = 1 + sizeOf elems := by simp
            omega
        | obj fields =>
            rw [stringify_obj_data]
            refine goodChunk_bracket '\x7b' '\x7d' _ (by decide) (by decide)
              (by decide) (by decide) (by decide) (by decide) ?_
            refine ihF fields ?_
            have hs : sizeOf (Json.obj fields) = 1 + sizeOf fields := by simp
            omega
      · intro l hl
        cases l with
        | nil => exact goodChunk_nil
        | cons x xs =>
            cases xs with
            | nil =>
                have hdata : (stringifyElems [x]).data =
                    (jsonStringify x).data := rfl
                rw [hdata]
                refine ihJ x ?_
                have hs : sizeOf ([x] : List Json) = 1 + sizeOf x + 1 := by
                  simp
                omega
            | cons y ys =>
                rw [stringifyElems_cons2_data]
                have hs : sizeOf (x :: y :: ys) =
                    1 + sizeOf x + sizeOf (y :: ys) := by simp
                refine goodChunk_append _ _ (ihJ x (by omega))
                  (goodChunk_append _ _
                    (goodChunk_singleton_inert ',' inert_comma)
                    (ihE (y :: ys) (by omega)))
      · intro l hl
        cases l with
        | nil => exact goodChunk_nil
        | cons kv fs =>
            obtain ⟨k, v⟩ := kv
            cases fs with
            | nil =>
                rw [stringifyFields_one_data, quoteStr_data]
                have hs : sizeOf ([(k, v)] : List (String × Json)) =
                    1 + (1 + sizeOf k + sizeOf v) + 1 := by simp
                refine goodChunk_append _ _ (goodChunk_quoted k.data)
                  (goodChunk_append _ _
                    (goodChunk_singleton_inert ':' inert_colon)
                    (ihJ v (by omega)))
            | cons f fs2 =>
                rw [stringifyFields_cons2_data, quoteStr_data]
                have hs : sizeOf ((k, v) :: f :: fs2) =
                    1 + (1 + sizeOf k + sizeOf v) + sizeOf (f :: fs2) := by
                  simp
                refine goodChunk_append _ _ (goodChunk_quoted k.data)
                  (goodChunk_append _ _
                    (goodChunk_singleton_inert ':' inert_colon)
                    (goodChunk_append _ _ (ihJ v (by omega))
                      (goodChunk_append _ _
                        (goodChunk_singleton_inert ',' inert_comma)
                        (ihF (f :: fs2) (by omega)))))

theorem goodChunk_stringify (v : Json) : GoodChunk (jsonStringify v).data :=
  (goodChunk_stringify_rec (sizeOf v)).1 v (le_refl _)

theorem goodChunk_stringifyFields (l : List (String × Json)) :
    GoodChunk (stringifyFields l).data :=
  (goodChunk_stringify_rec (sizeOf l)).2.2 l (le_refl _)

theorem pscan_append_none {st : Phase × Int} {a : List Char}
    (b : List Char) (h : pscan st a = none) : pscan st (a ++ b) = none := by
  rw [pscan_append, h]

theorem pscan_antisync : ∀ (cs : List Char) (p1 p2 : Phase) (b1 b2 : Int)
    (st1 st2 : Phase × Int), AntiSync p1 p2 →
    pscan (p1, b1) cs = some st1 → pscan (p2, b2) cs = some st2 →
    AntiSync st1.1 st2.1 := by
  intro cs
  induction cs with
  | nil =>
      intro p1 p2 b1 b2 st1 st2 has h1 h2
      simp only [pscan] at h1 h2
      injection h1 with e1
      injection h2 with e2
      subst e1
      subst e2
      exact has
  | cons c cs ih =>
      intro p1 p2 b1 b2 st1 st2 has h1 h2
      rcases has with ⟨rfl, rfl⟩ | ⟨rfl, rfl⟩
      · by_cases hbs : c = '\\'
        · subst hbs
          simp [pscan, pstep] at h1
        · by_cases hq : c = '"'
          · subst hq
            rw [pscan_cons_ok _ (show pstep (Phase.out, b1) '"' =
              some (Phase.inn, b1) from by simp [pstep])] at h1
            rw [pscan_cons_ok _ (show pstep (Phase.inn, b2) '"' =
              some (Phase.out, b2) from by simp [pstep])] at h2
            exact ih Phase.inn Phase.out b1 b2 st1 st2
              (Or.inr ⟨rfl, rfl⟩) h1 h2
          · rw [pscan_cons_ok _ (show pstep (Phase.out, b1) c =
              some (Phase.out, b1 + braceDelta c) from by
                simp [pstep, hbs, hq])] at h1
            rw [pscan_cons_ok _ (show pstep (Phase.inn, b2) c =
              some (Phase.inn, b2) from by simp [pstep, hbs, hq])] at h2
            exact ih Phase.out Phase.inn _ b2 st1 st2
              (Or.inl ⟨rfl, rfl⟩) h1 h2
      · by_cases hbs : c = '\\'
        · subst hbs
          simp [pscan, pstep] at h2
        · by_cases hq : c = '"'
          · subst hq
            rw [pscan_cons_ok _ (show pstep (Phase.inn, b1) '"' =
              some (Phase.out, b1) from by simp [pstep])] at h1
            rw [pscan_cons_ok _ (show pstep (Phase.out, b2) '"' =
              some (Phase.inn, b2) from by simp [pstep])] at h2
            exact ih Phase.out Phase.inn b1 b2 st1 st2
              (Or.inl ⟨rfl, rfl⟩) h1 h2
          · rw [pscan_cons_ok _ (show pstep (Phase.inn, b1) c =
              some (Phase.inn, b1) from by simp [pstep, hbs, hq])] at h1
            rw [pscan_cons_ok _ (show pstep (Phase.out, b2) c =
              some (Phase.out, b2 + braceDelta c) from by
                simp [pstep, hbs, hq])] at h2
            exact ih Phase.inn Phase.out b1 _ st1 st2
              (Or.inr ⟨rfl, rfl⟩) h1 h2

theorem obj_prefix_bal (fields : List (String × Json)) (t q : List Char)
    (st : Phase × Int)
    (hsplit : (jsonStringify (Json.obj fields)).data = t ++ q)
    (ht : t ≠ []) (hq : q ≠ [])
    (hscan : pscan (Phase.out, 0) t = some st) : 1 ≤ st.2 := by
  rw [stringify_obj_data] at hsplit
  simp only [List.cons_append] at hsplit
  obtain ⟨t0, ts, rfl⟩ : ∃ t0 ts, t = t0 :: ts := by
    cases t with
    | nil => exact absurd rfl ht
    | cons a as => exact ⟨a, as, rfl⟩
  injection hsplit with e1 e2
  subst e1
  have hstepo : pstep (Phase.out, (0 : Int)) '\x7b' =
      some (Phase.out, 1) := by simp [pstep, braceDelta]
  rw [pscan_cons_ok _ hstepo] at hscan
  obtain ⟨hff, hfp⟩ := goodChunk_stringifyFields fields 1
  rcases List.append_eq_append_iff.mp e2.symm with ⟨r, hFr, hqr⟩ |
    ⟨r, htsr, hbr⟩
  · exact hfp ts r st hFr hscan
  · rw [htsr, pscan_append_ok _ hff] at hscan
    cases r with
    | nil =>
        simp only [pscan] at hscan
        injection hscan with hx
        subst hx
        exact le_refl 1
    | cons r0 rs =>
        rw [List.cons_append] at hbr
        injection hbr with e3 e4
        have hqq : q = [] := by
          cases rs with
          | nil => exact e4.symm
          | cons a as => simp at e4
        exact absurd hqq hq

theorem stringify_obj_suffix (o1 o2 : List (String × Json)) (t : List Char)
    (h : (jsonStringify (Json.obj o1)).data =
      t ++ (jsonStringify (Json.obj o2)).data) : t = [] := by
  by_contra ht
  have hfull1 : pscan (Phase.out, 0)
      (t ++ (jsonStringify (Json.obj o2)).data) = some (Phase.out, 0) := by
    rw [← h]
    exact (goodChunk_stringify (Json.obj o1) 0).1
  have hstep1 : pstep (Phase.out, (0 : Int)) '\x7b' =
      some (Phase.out, 1) := by simp [pstep, braceDelta]
  have hrun1 : pscan (Phase.out, (1 : Int))
      ((stringifyFields o2).data ++ ['\x7d']) = some (Phase.out, 0) := by
    have hx := (goodChunk_stringify (Json.obj o2) 0).1
    rw [stringify_obj_data, List.cons_append, pscan_cons_ok _ hstep1] at hx
    exact hx
  cases hσ : pscan (Phase.out, 0) t with
  | none =>
      rw [pscan_append_none _ hσ] at hfull1
      exact absurd hfull1 (by simp)
  | some σ =>
      rw [pscan_append_ok _ hσ] at hfull1
      have hS2ne : (jsonStringify (Json.obj o2)).data ≠ [] := by
        rw [stringify_obj_data]
        simp
      have hbal : 1 ≤ σ.2 := obj_prefix_bal o1 t _ σ h ht hS2ne hσ
      obtain ⟨σp, σb⟩ := σ
      cases σp with
      | out =>
          rw [(goodChunk_stringify (Json.obj o2) σb).1] at hfull1
          injection hfull1 with hx
          have hb0 : σb = 0 := congrArg Prod.snd hx
          simp only [hb0] at hbal
          omega
      | inn =>
          rw [stringify_obj_data, List.cons_append,
            pscan_cons_ok _ (show pstep (Phase.inn, σb) '\x7b' =
              some (Phase.inn, σb) from by simp [pstep])] at hfull1
          have has := pscan_antisync
            ((stringifyFields o2).data ++ ['\x7d'])
            Phase.out Phase.inn 1 σb (Phase.out, 0) (Phase.out, 0)
            (Or.inl ⟨rfl, rfl⟩) hrun1 hfull1
          rcases has with ⟨-, hx⟩ | ⟨hx, -⟩ <;> exact Phase.noConfusion hx
      | esc =>
          rw [stringify_obj_data, List.cons_append,
            pscan_cons_ok _ (show pstep (Phase.esc, σb) '\x7b' =
              some (Phase.inn, σb) from rfl)] at hfull1
          have has := pscan_antisync
            ((stringifyFields o2).data ++ ['\x7d'])
            Phase.out Phase.inn 1 σb (Phase.out, 0) (Phase.out, 0)
            (Or.inl ⟨rfl, rfl⟩) hrun1 hfull1
          rcases has with ⟨-, hx⟩ | ⟨hx, -⟩ <;> exact Phase.noConfusion hx

/-- C1 (amended): the cache key of `APIManager.fetch` is
`url + JSON.stringify(options)` with `options` serialized in property
insertion order, and this concatenation is injective: two calls map to the
same cache key exactly when their urls are equal and their options
serialize to the same string.  So two logically different requests — a
different url, or options with different serializations — never map to the
same key (no `jsonStringify` output is a proper suffix of another, because
a backslash never occurs outside a string literal, so the two readings of
the shared characters keep opposite string-literal phases and cannot both
finish outside at balance zero).  The key is, however, not insertion-order
independent: semantically equal options in different property order
serialize differently (see the counterexample). -/
theorem APIManager.cacheKey_canonicalization :
    ∀ (u1 u2 : String) (o1 o2 : List (String × Json)),
      APIManager.cacheKey u1 o1 = APIManager.cacheKey u2 o2 ↔
        (u1 = u2 ∧
          jsonStringify (Json.obj o1) = jsonStringify (Json.obj o2)) := by
  intro u1 u2 o1 o2
  constructor
  · intro h
    have hd := congrArg String.data h
    simp only [APIManager.cacheKey, String.data_append] at hd
    rcases List.append_eq_append_iff.mp hd with ⟨t, hu, hs⟩ | ⟨t, hu, hs⟩
    · have ht := stringify_obj_suffix o1 o2 t hs
      subst ht
      have hu2 : u2.data = u1.data := by simpa using hu
      refine ⟨String.ext hu2.symm, ?_⟩
      exact String.ext (by simpa using hs)
    · have ht := stringify_obj_suffix o2 o1 t hs
      subst ht
      have hu2 : u1.data = u2.data := by simpa using hu
      refine ⟨String.ext hu2, ?_⟩
      exact (String.ext (by simpa using hs)).symm
  · rintro ⟨rfl, hser⟩
    simp [APIManager.cacheKey, hser]

/-- C1 counterexample: the options objects `\x7ba:1,b:2\x7d` and
`\x7bb:2,a:1\x7d` are semantically equal (one is a permutation of the
other) yet `APIManager.fetch` computes different cache keys for them, so
the two calls do not hit the same cache entry. -/
theorem APIManager.cacheKey_order_counterexample :
    List.Perm [("a", Json.num 1), ("b", Json.num 2)]
      [("b", Json.num 2), ("a", Json.num 1)] ∧
    APIManager.cacheKey "https://api.example.com/deals"
        [("a", Json.num 1), ("b", Json.num 2)] ≠
      APIManager.cacheKey "https://api.example.com/deals"
        [("b", Json.num 2), ("a", Json.num 1)] := by
  constructor
  · exact List.Perm.swap ("b", Json.num 2) ("a", Json.num 1) []
  · decide

/-- C2 (amended): after one successful `fetchJson(u, o)` stores a cache
entry whose payload is truthy, a second call with identical `(u, o)` while
the entry is non-expired returns the stored value and does not invoke the
transport again.  (For falsy payloads the `if (cached)` truthiness test
treats the valid entry as a miss — see the counterexample.) -/
theorem APIManager.fetch_cache_hit_truthy (s : APIManager.State)
    (url : String) (options : List (String × Json))
    (r : APIManager.HttpResponse) (t0 t1 : Int)
    (hlen : s.cache.length ≤ 50) (hok : r.ok = true)
    (htruthy : r.body.truthy = true)
    (hfresh : t1 - t0 < APIManager.CACHE_TTL) :
    (APIManager.fetchStep
        ((APIManager.settle s (APIManager.cacheKey url options)
          (.response r) t0).2) url options t1).1 = .cached r.body ∧
    (APIManager.fetchStep
        ((APIManager.settle s (APIManager.cacheKey url options)
          (.response r) t0).2) url options t1).2.transportCount =
      s.transportCount := by
  set key := APIManager.cacheKey url options with hkey
  have hs1 : (APIManager.settle s key (.response r) t0).2 =
      { s with
        cache := APIManager.setCache s.cache key r.body t0,
        pendingRequests := JsMap.delete s.pendingRequests key } := by
    simp [APIManager.settle, hok]
  have hget : JsMap.get? (APIManager.settle s key (.response r) t0).2.cache
      key = some ⟨r.body, t0⟩ := by
    rw [hs1]
    exact APIManager.setCache_get?_self s.cache key r.body t0 hlen
  have hstep := APIManager.fetchStep_hit
    ((APIManager.settle s key (.response r) t0).2) url options t1
    ⟨r.body, t0⟩ hget hfresh htruthy
  rw [hstep]
  refine ⟨rfl, ?_⟩
  rw [hs1]

/-- C2 counterexample: the payload `false` is a valid JSON value; after a
successful fetch caches it, a second identical call one second later (far
within the TTL) does not return the cached value — it issues a second
transport invocation, because `if (cached)` tests JavaScript truthiness. -/
theorem APIManager.fetch_falsy_cached_counterexample :
    (APIManager.fetchStep
        ((APIManager.settle
          ((APIManager.fetchStep APIManager.initState
            "https://api.example.com/deals" [] 0).2)
          (APIManager.cacheKey "https://api.example.com/deals" [])
          (.response ⟨200, Json.bool false⟩) 0).2)
        "https://api.example.com/deals" [] 1000).1 = .started 1 ∧
    (APIManager.fetchStep
        ((APIManager.settle
          ((APIManager.fetchStep APIManager.initState
            "https://api.example.com/deals" [] 0).2)
          (APIManager.cacheKey "https://api.example.com/deals" [])
          (.response ⟨200, Json.bool false⟩) 0).2)
        "https://api.example.com/deals" [] 1000).2.transportCount = 2 := by
  constructor
  · rfl
  · rfl

/-- C2 witness: a concrete instance of the truthy cache-hit theorem, with
the payload `7` fetched successfully at time 0 and re-requested at 1000ms. -/
theorem APIManager.fetch_cache_hit_truthy_witness :
    ((APIManager.initState.cache.length ≤ 50) ∧
      APIManager.HttpResponse.ok ⟨200, Json.num 7⟩ = true ∧
      Json.truthy (Json.num 7) = true ∧
      ((1000 : Int) - 0 < APIManager.CACHE_TTL)) ∧
    ((APIManager.fetchStep
        ((APIManager.settle APIManager.initState
          (APIManager.cacheKey "https://api.example.com/deals" [])
          (.response ⟨200, Json.num 7⟩) 0).2)
        "https://api.example.com/deals" [] 1000).1 = .cached (Json.num 7) ∧
      (APIManager.fetchStep
        ((APIManager.settle APIManager.initState
          (APIManager.cacheKey "https://api.example.com/deals" [])
          (.response ⟨200, Json.num 7⟩) 0).2)
        "https://api.example.com/deals" [] 1000).2.transportCount =
        APIManager.initState.transportCount) :=
  ⟨⟨by decide, by decide, by decide, by decide⟩,
    APIManager.fetch_cache_hit_truthy APIManager.initState
      "https://api.example.com/deals" [] ⟨200, Json.num 7⟩ 0 1000
      (by decide) (by decide) (by decide) (by decide)⟩

theorem APIManager.keys_nodup_evictOldest (c : List (String × APIManager.CacheEntry))
    (h : (JsMap.keys c).Nodup) : (JsMap.keys (APIManager.evictOldest c)).Nodup := by
  by_cases h50 : c.length > 50
  · simp only [APIManager.evictOldest, if_pos h50]
    cases c with
    | nil => simpa using h
    | cons hd tl =>
        obtain ⟨k0, v0⟩ := hd
        exact JsMap.keys_nodup_delete _ _ h
  · simp only [APIManager.evictOldest, if_neg h50]
    exact h

theorem APIManager.keys_nodup_setCache (cache : List (String × APIManager.CacheEntry))
    (key : String) (data : Json) (now : Int)
    (h : (JsMap.keys cache).Nodup) :
    (JsMap.keys (APIManager.setCache cache key data now)).Nodup :=
  APIManager.keys_nodup_evictOldest _ (JsMap.keys_nodup_set cache key _ h)

/-- C3: an entry cached by a successful call at `t0` is valid only while
`now - storedAt < CACHE_TTL`; a call with the same key at any `t1` with
`t1 - t0 >= CACHE_TTL` treats the entry as absent, evicts it from the
cache, and invokes the transport again. -/
theorem APIManager.fetch_cache_expiry (s : APIManager.State) (url : String)
    (options : List (String × Json)) (r : APIManager.HttpResponse)
    (t0 t1 : Int) (hlen : s.cache.length ≤ 50)
    (hnodupc : (JsMap.keys s.cache).Nodup)
    (hnodupp : (JsMap.keys s.pendingRequests).Nodup)
    (hok : r.ok = true) (hexp : APIManager.CACHE_TTL ≤ t1 - t0) :
    (APIManager.fetchStep
        ((APIManager.settle s (APIManager.cacheKey url options)
          (.response r) t0).2) url options t1).1 =
      .started ((APIManager.settle s (APIManager.cacheKey url options)
        (.response r) t0).2).nextId ∧
    (APIManager.fetchStep
        ((APIManager.settle s (APIManager.cacheKey url options)
          (.response r) t0).2) url options t1).2.transportCount =
      ((APIManager.settle s (APIManager.cacheKey url options)
        (.response r) t0).2).transportCount + 1 ∧
    JsMap.get? (APIManager.fetchStep
        ((APIManager.settle s (APIManager.cacheKey url options)
          (.response r) t0).2) url options t1).2.cache
      (APIManager.cacheKey url options) = none := by
  set key := APIManager.cacheKey url options with hkeydef
  have hs1 : (APIManager.settle s key (.response r) t0).2 =
      { s with
        cache := APIManager.setCache s.cache key r.body t0,
        pendingRequests := JsMap.delete s.pendingRequests key } := by
    simp [APIManager.settle, hok]
  set s1 := (APIManager.settle s key (.response r) t0).2 with hs1def
  have hget : JsMap.get? s1.cache key = some ⟨r.body, t0⟩ := by
    rw [hs1]
    exact APIManager.setCache_get?_self s.cache key r.body t0 hlen
  have hstale : ¬ (t1 - (⟨r.body, t0⟩ : APIManager.CacheEntry).timestamp <
      APIManager.CACHE_TTL) := by
    simp only []
    omega
  have hgc : APIManager.getCache s1.cache key t1 =
      (none, JsMap.delete s1.cache key) := by
    simp [APIManager.getCache, hget, hstale]
  have hmiss : APIManager.servedFromCache s1.cache key t1 = none := by
    simp [APIManager.servedFromCache, hgc]
  have hpend : JsMap.get? s1.pendingRequests key = none := by
    rw [hs1]
    exact JsMap.get?_delete_self s.pendingRequests key hnodupp
  have hstep := APIManager.fetchStep_start s1 url options t1 hpend hmiss
  rw [hstep]
  refine ⟨rfl, rfl, ?_⟩
  simp only [hgc]
  apply JsMap.get?_delete_self
  rw [hs1]
  exact APIManager.keys_nodup_setCache s.cache key r.body t0 hnodupc

/-- C3 witness: a concrete instance — a payload cached at time 0 and
re-requested exactly at the TTL boundary (300000ms later). -/
theorem APIManager.fetch_cache_expiry_witness :
    ((APIManager.initState.cache.length ≤ 50) ∧
      (JsMap.keys APIManager.initState.cache).Nodup ∧
      (JsMap.keys APIManager.initState.pendingRequests).Nodup ∧
      APIManager.HttpResponse.ok ⟨200, Json.num 7⟩ = true ∧
      (APIManager.CACHE_TTL ≤ (300000 : Int) - 0)) ∧
    ((APIManager.fetchStep
        ((APIManager.settle APIManager.initState
          (APIManager.cacheKey "https://api.example.com/deals" [])
          (.response ⟨200, Json.num 7⟩) 0).2)
        "https://api.example.com/deals" [] 300000).1 =
      .started ((APIManager.settle APIManager.initState
        (APIManager.cacheKey "https://api.example.com/deals" [])
        (.response ⟨200, Json.num 7⟩) 0).2).nextId ∧
    (APIManager.fetchStep
        ((APIManager.settle APIManager.initState
          (APIManager.cacheKey "https://api.example.com/deals" [])
          (.response ⟨200, Json.num 7⟩) 0).2)
        "https://api.example.com/deals" [] 300000).2.transportCount =
      ((APIManager.settle APIManager.initState
        (APIManager.cacheKey "https://api.example.com/deals" [])
        (.response ⟨200, Json.num 7⟩) 0).2).transportCount + 1 ∧
    JsMap.get? (APIManager.fetchStep
        ((APIManager.settle APIManager.initState
          (APIManager.cacheKey "https://api.example.com/deals" [])
          (.response ⟨200, Json.num 7⟩) 0).2)
        "https://api.example.com/deals" [] 300000).2.cache
      (APIManager.cacheKey "https://api.example.com/deals" []) = none) :=
  ⟨⟨by decide, by decide, by decide, by decide, by decide⟩,
    APIManager.fetch_cache_expiry APIManager.initState
      "https://api.example.com/deals" [] ⟨200, Json.num 7⟩ 0 300000
      (by decide) (by decide) (by decide) (by decide) (by decide)⟩

/-- C6: when the transport settles with a non-2xx response, a timeout, or a
transport error, the request promise for the key rejects with the matching
`NetworkFailure` (carrying the status code or the timeout indicator), the
`finally` block removes the pending entry for the key, and nothing is
cached: the cache is left exactly as it was.  All callers attached to the
pending request hold this same promise, so they all observe this one
failure. -/
theorem APIManager.settle_failure_no_cache (s : APIManager.State)
    (key : String) (result : APIManager.TransportResult) (now : Int)
    (hfail : result.failed = true)
    (hnodup : (JsMap.keys s.pendingRequests).Nodup) :
    JsMap.get? (APIManager.settle s key result now).2.pendingRequests key =
      none ∧
    (APIManager.settle s key result now).2.cache = s.cache ∧
    (APIManager.settle s key result now).2.transportCount =
      s.transportCount ∧
    (∀ r : APIManager.HttpResponse, result = .response r →
      (APIManager.settle s key result now).1 =
        .failure (.httpError r.status)) ∧
    (result = .timeout →
      (APIManager.settle s key result now).1 = .failure .timeout) ∧
    (result = .networkError →
      (APIManager.settle s key result now).1 = .failure .transportError) := by
  cases result with
  | response r =>
      have hok : r.ok = false := by
        simpa [APIManager.TransportResult.failed] using hfail
      refine ⟨?_, ?_, ?_, ?_, ?_, ?_⟩
      · simp only [APIManager.settle, hok, Bool.false_eq_true, if_false]
        exact JsMap.get?_delete_self s.pendingRequests key hnodup
      · simp [APIManager.settle, hok]
      · simp [APIManager.settle, hok]
      · intro r0 hr0
        injection hr0 with hr0
        subst hr0
        simp [APIManager.settle, hok]
      · intro h
        exact absurd h (by simp)
      · intro h
        exact absurd h (by simp)
  | timeout =>
      refine ⟨?_, rfl, rfl, ?_, ?_, ?_⟩
      · exact JsMap.get?_delete_self s.pendingRequests key hnodup
      · intro r0 hr0
        exact absurd hr0 (by simp)
      · intro _
        rfl
      · intro h
        exact absurd h (by simp)
  | networkError =>
      refine ⟨?_, rfl, rfl, ?_, ?_, ?_⟩
      · exact JsMap.get?_delete_self s.pendingRequests key hnodup
      · intro r0 hr0
        exact absurd hr0 (by simp)
      · intro h
        exact absurd h (by simp)
      · intro _
        rfl

/-- C6 witness: a concrete instance — a pending request for one key settles
with HTTP 404; the pending entry is removed, the cache is untouched, and
the result is the `HTTP 404` failure. -/
theorem APIManager.settle_failure_no_cache_witness :
    (APIManager.TransportResult.failed
        (.response ⟨404, Json.null⟩) = true ∧
      (JsMap.keys [("k", 0)]).Nodup) ∧
    (JsMap.get? (APIManager.settle
        ⟨[], [("k", 0)], 1, 1⟩ "k" (.response ⟨404, Json.null⟩) 0).2.pendingRequests
        "k" = none ∧
      (APIManager.settle ⟨[], [("k", 0)], 1, 1⟩ "k"
        (.response ⟨404, Json.null⟩) 0).2.cache = ([] : List (String × APIManager.CacheEntry)) ∧
      (APIManager.settle ⟨[], [("k", 0)], 1, 1⟩ "k"
        (.response ⟨404, Json.null⟩) 0).2.transportCount = 1 ∧
      (∀ r : APIManager.HttpResponse,
        (APIManager.TransportResult.response ⟨404, Json.null⟩) = .response r →
        (APIManager.settle ⟨[], [("k", 0)], 1, 1⟩ "k"
          (.response ⟨404, Json.null⟩) 0).1 = .failure (.httpError r.status)) ∧
      ((APIManager.TransportResult.response ⟨404, Json.null⟩) = .timeout →
        (APIManager.settle ⟨[], [("k", 0)], 1, 1⟩ "k"
          (.response ⟨404, Json.null⟩) 0).1 = .failure .timeout) ∧
      ((APIManager.TransportResult.response ⟨404, Json.null⟩) = .networkError →
        (APIManager.settle ⟨[], [("k", 0)], 1, 1⟩ "k"
          (.response ⟨404, Json.null⟩) 0).1 = .failure .transportError)) :=
  ⟨⟨by decide, by decide⟩,
    APIManager.settle_failure_no_cache ⟨[], [("k", 0)], 1, 1⟩ "k"
      (.response ⟨404, Json.null⟩) 0 (by decide) (by decide)⟩

theorem APIManager.fetchStep_pending_cases (s : APIManager.State)
    (url : String) (options : List (String × Json)) (now : Int) :
    (APIManager.fetchStep s url options now).2.pendingRequests =
      s.pendingRequests ∨
    (APIManager.fetchStep s url options now).2.pendingRequests =
      JsMap.set s.pendingRequests (APIManager.cacheKey url options)
        s.nextId := by
  cases hg : (APIManager.getCache s.cache
      (APIManager.cacheKey url options) now).1 with
  | some v =>
      cases hv : v.truthy with
      | true =>
          left
          simp [APIManager.fetchStep, hg, hv]
      | false =>
          cases hp : JsMap.get? s.pendingRequests
              (APIManager.cacheKey url options) with
          | some id =>
              left
              simp [APIManager.fetchStep, APIManager.fetchStep.fetchMiss,
                hg, hv, hp]
          | none =>
              right
              simp [APIManager.fetchStep, APIManager.fetchStep.fetchMiss,
                hg, hv, hp]
  | none =>
      cases hp : JsMap.get? s.pendingRequests
          (APIManager.cacheKey url options) with
      | some id =>
          left
          simp [APIManager.fetchStep, APIManager.fetchStep.fetchMiss, hg, hp]
      | none =>
          right
          simp [APIManager.fetchStep, APIManager.fetchStep.fetchMiss, hg, hp]

/-- C4: de-duplication of in-flight requests.  (i) A `fetch` call whose key
has a pending request and is not served from the cache attaches to that
pending promise: it returns the existing promise id, leaves the pending map
unchanged, and performs no transport invocation.  (ii) Every `fetch`
prologue preserves "at most one pending request per key" (no duplicate keys
in the pending map).  (iii) Fan-in: from a state where the key is neither
cached nor pending, `n >= 1` calls issued before the transport settles
perform exactly one transport invocation; the first caller starts promise
`nextId` and every later caller attaches to that same promise, so all of
them observe the outcome of that single settlement. -/
theorem APIManager.fetch_dedup_single_flight :
    (∀ (s : APIManager.State) (url : String)
        (options : List (String × Json)) (now : Int) (id : Nat),
      JsMap.get? s.pendingRequests (APIManager.cacheKey url options) =
        some id →
      APIManager.servedFromCache s.cache (APIManager.cacheKey url options)
        now = none →
      (APIManager.fetchStep s url options now).1 = .attached id ∧
      (APIManager.fetchStep s url options now).2.pendingRequests =
        s.pendingRequests ∧
      (APIManager.fetchStep s url options now).2.transportCount =
        s.transportCount) ∧
    (∀ (s : APIManager.State) (url : String)
        (options : List (String × Json)) (now : Int),
      (JsMap.keys s.pendingRequests).Nodup →
      (JsMap.keys
        (APIManager.fetchStep s url options now).2.pendingRequests).Nodup) ∧
    (∀ (s : APIManager.State) (url : String)
        (options : List (String × Json)) (now : Int) (n : Nat),
      APIManager.cacheKey url options ∉ JsMap.keys s.cache →
      APIManager.cacheKey url options ∉ JsMap.keys s.pendingRequests →
      1 ≤ n →
      (APIManager.fanIn s url options now n).1 =
        .started s.nextId ::
          List.replicate (n - 1) (.attached s.nextId) ∧
      (APIManager.fanIn s url options now n).2.transportCount =
        s.transportCount + 1) := by
  refine ⟨?_, ?_, ?_⟩
  · intro s url options now id hid hmiss
    rw [APIManager.fetchStep_attach s url options now id hid hmiss]
    exact ⟨rfl, rfl, rfl⟩
  · intro s url options now hnd
    rcases APIManager.fetchStep_pending_cases s url options now with h | h
    · rw [h]; exact hnd
    · rw [h]; exact JsMap.keys_nodup_set s.pendingRequests _ _ hnd
  · intro s url options now n hkc hkp hn
    obtain ⟨m, rfl⟩ : ∃ m, n = m + 1 := ⟨n - 1, by omega⟩
    have hpend : JsMap.get? s.pendingRequests
        (APIManager.cacheKey url options) = none :=
      JsMap.get?_eq_none _ _ hkp
    have hmiss := APIManager.servedFromCache_of_not_mem s.cache
      (APIManager.cacheKey url options) now hkc
    have hS : APIManager.fetchStep s url options now =
        (.started s.nextId,
          { cache := s.cache,
            pendingRequests := JsMap.set s.pendingRequests
              (APIManager.cacheKey url options) s.nextId,
            nextId := s.nextId + 1,
            transportCount := s.transportCount + 1 }) := by
      rw [APIManager.fetchStep_start s url options now hpend hmiss,
        APIManager.getCache_snd_of_not_mem s.cache _ now hkc]
    have hrest := APIManager.fanIn_attached url options now m
      { cache := s.cache,
        pendingRequests := JsMap.set s.pendingRequests
          (APIManager.cacheKey url options) s.nextId,
        nextId := s.nextId + 1,
        transportCount := s.transportCount + 1 }
      s.nextId (JsMap.get?_set_self s.pendingRequests _ s.nextId) hkc
    simp only [APIManager.fanIn, hS, hrest, Nat.add_sub_cancel]
    refine ⟨?_, ?_⟩ <;> trivial

/-- C4 witness: concrete instances — a call that attaches to the pending
promise 5 of an already in-flight request, and a three-caller fan-in from
the pristine state that performs exactly one transport invocation. -/
theorem APIManager.fetch_dedup_single_flight_witness :
    (JsMap.get?
        [(APIManager.cacheKey "https://api.example.com/deals" [], 5)]
        (APIManager.cacheKey "https://api.example.com/deals" []) =
        some 5 ∧
      APIManager.servedFromCache []
        (APIManager.cacheKey "https://api.example.com/deals" []) 0 = none ∧
      APIManager.cacheKey "https://api.example.com/deals" [] ∉
        JsMap.keys APIManager.initState.cache ∧
      APIManager.cacheKey "https://api.example.com/deals" [] ∉
        JsMap.keys APIManager.initState.pendingRequests ∧
      (1 : Nat) ≤ 3) ∧
    ((APIManager.fetchStep
        ⟨[], [(APIManager.cacheKey "https://api.example.com/deals" [], 5)],
          6, 1⟩ "https://api.example.com/deals" [] 0).1 = .attached 5 ∧
      (APIManager.fanIn APIManager.initState
          "https://api.example.com/deals" [] 0 3).1 =
        .started 0 :: List.replicate 2 (.attached 0) ∧
      (APIManager.fanIn APIManager.initState
          "https://api.example.com/deals" [] 0 3).2.transportCount = 1) := by
  have h := APIManager.fetch_dedup_single_flight
  have h1 := h.1
    ⟨[], [(APIManager.cacheKey "https://api.example.com/deals" [], 5)], 6, 1⟩
    "https://api.example.com/deals" [] 0 5 (by decide) (by rfl)
  have h3 := h.2.2 APIManager.initState "https://api.example.com/deals" [] 0 3
    (by decide) (by decide) (by decide)
  exact ⟨⟨by decide, by rfl, by decide, by decide, by decide⟩,
    h1.1, by simpa using h3.1, by simpa using h3.2⟩

/-- C5: eviction is FIFO and bounded.  (i) When `setCache` runs on a cache
of at most 50 entries, the result again has at most 50 entries (the excess
entry, when any, is removed by deleting the first-inserted key, with no
recency bump).  (ii) Inserting 51 distinct fresh keys into the empty cache
leaves the first-inserted key absent, every one of the other 50 keys
present, and exactly 50 entries. -/
theorem APIManager.setCache_fifo_eviction :
    (∀ (cache : List (String × APIManager.CacheEntry)) (key : String)
        (data : Json) (now : Int),
      cache.length ≤ 50 →
      (APIManager.setCache cache key data now).length ≤ 50) ∧
    (∀ (data : Json) (now : Int) (k0 : String) (rest : List String),
      (k0 :: rest).Nodup → rest.length = 50 →
      JsMap.get? ((k0 :: rest).foldl
        (fun acc k => APIManager.setCache acc k data now) []) k0 = none ∧
      (∀ k ∈ rest, (JsMap.get? ((k0 :: rest).foldl
        (fun acc k => APIManager.setCache acc k data now) []) k).isSome) ∧
      ((k0 :: rest).foldl
        (fun acc k => APIManager.setCache acc k data now) []).length = 50) := by
  refine ⟨fun cache key data now h =>
    APIManager.setCache_length_le cache key data now h, ?_⟩
  intro data now k0 rest hnd hlen
  have hne : rest ≠ [] := by
    intro h
    rw [h] at hlen
    simp at hlen
  have hsplit : rest.dropLast ++ [rest.getLast hne] = rest :=
    List.dropLast_append_getLast hne
  set mid := rest.dropLast with hmiddef
  set klast := rest.getLast hne with hklastdef
  have hmidlen : mid.length = 49 := by
    have hx := congrArg List.length hsplit
    simp only [List.length_append, List.length_singleton] at hx
    omega
  have hk0 : k0 ∉ rest := (List.nodup_cons.mp hnd).1
  have hrestnd : rest.Nodup := (List.nodup_cons.mp hnd).2
  have hx : (mid ++ [klast]).Nodup := hsplit ▸ hrestnd
  rw [List.nodup_append] at hx
  obtain ⟨hmidnd, -, hdisj⟩ := hx
  have hklastmid : klast ∉ mid := fun hm =>
    (hdisj hm) (List.mem_singleton_self klast)
  have hklastrest : klast ∈ rest := List.getLast_mem hne
  have hmidsub : ∀ k, k ∈ mid → k ∈ rest := by
    intro k hk
    rw [← hsplit]
    exact List.mem_append_left _ hk
  have hc0 : APIManager.setCache [] k0 data now =
      [(k0, (⟨data, now⟩ : APIManager.CacheEntry))] := rfl
  have hinner : mid.foldl (fun acc k => APIManager.setCache acc k data now)
      [(k0, (⟨data, now⟩ : APIManager.CacheEntry))] =
      [(k0, (⟨data, now⟩ : APIManager.CacheEntry))] ++
        mid.map (fun k => (k, (⟨data, now⟩ : APIManager.CacheEntry))) := by
    apply APIManager.setCache_foldl_fresh data now mid
      [(k0, (⟨data, now⟩ : APIManager.CacheEntry))] hmidnd
    · intro k hk
      simp only [JsMap.keys, List.map_cons, List.map_nil,
        List.mem_singleton]
      intro hEq
      subst hEq
      exact hk0 (hmidsub k hk)
    · simp [hmidlen]
  have hkeysinner : JsMap.keys
      ([(k0, (⟨data, now⟩ : APIManager.CacheEntry))] ++
        mid.map (fun k => (k, (⟨data, now⟩ : APIManager.CacheEntry)))) =
      k0 :: mid := by
    rw [JsMap.keys_append]
    simp only [JsMap.keys, List.map_map, List.map_cons, List.map_nil]
    have hfun : (Prod.fst ∘ fun k : String =>
        (k, (⟨data, now⟩ : APIManager.CacheEntry))) = fun k : String => k :=
      rfl
    rw [hfun]
    simp
  have hklastfresh : klast ∉ JsMap.keys
      ([(k0, (⟨data, now⟩ : APIManager.CacheEntry))] ++
        mid.map (fun k => (k, (⟨data, now⟩ : APIManager.CacheEntry)))) := by
    rw [hkeysinner]
    simp only [List.mem_cons, not_or]
    constructor
    · intro hEq
      subst hEq
      exact hk0 hklastrest
    · exact hklastmid
  have hinnerlen :
      ([(k0, (⟨data, now⟩ : APIManager.CacheEntry))] ++
        mid.map (fun k => (k, (⟨data, now⟩ : APIManager.CacheEntry)))).length
      = 50 := by
    simp [hmidlen]
  have hlast : APIManager.setCache
      ([(k0, (⟨data, now⟩ : APIManager.CacheEntry))] ++
        mid.map (fun k => (k, (⟨data, now⟩ : APIManager.CacheEntry))))
      klast data now =
      mid.map (fun k => (k, (⟨data, now⟩ : APIManager.CacheEntry))) ++
        [(klast, (⟨data, now⟩ : APIManager.CacheEntry))] := by
    unfold APIManager.setCache
    rw [JsMap.set_eq_append _ _ _ hklastfresh]
    rw [List.singleton_append, List.cons_append]
    apply APIManager.evictOldest_eq_tail
    have hxl : (mid.map (fun k =>
        (k, (⟨data, now⟩ : APIManager.CacheEntry)))).length = 49 := by
      simp [hmidlen]
    simp [hxl]
  have hfold : (k0 :: rest).foldl
      (fun acc k => APIManager.setCache acc k data now) [] =
      mid.map (fun k => (k, (⟨data, now⟩ : APIManager.CacheEntry))) ++
        [(klast, (⟨data, now⟩ : APIManager.CacheEntry))] := by
    simp only [List.foldl_cons, hc0]
    rw [← hsplit, List.foldl_append, hinner]
    simp only [List.foldl_cons, List.foldl_nil]
    exact hlast
  rw [hfold]
  have hkeysfinal : JsMap.keys
      (mid.map (fun k => (k, (⟨data, now⟩ : APIManager.CacheEntry))) ++
        [(klast, (⟨data, now⟩ : APIManager.CacheEntry))]) =
      mid ++ [klast] := by
    rw [JsMap.keys_append]
    simp only [JsMap.keys, List.map_map, List.map_cons, List.map_nil]
    have hfun : (Prod.fst ∘ fun k : String =>
        (k, (⟨data, now⟩ : APIManager.CacheEntry))) = fun k : String => k :=
      rfl
    rw [hfun]
    simp
  refine ⟨?_, ?_, ?_⟩
  · apply JsMap.get?_eq_none
    rw [hkeysfinal]
    rw [← hsplit] at hk0
    exact hk0
  · intro k hk
    apply JsMap.get?_isSome_of_mem
    rw [hkeysfinal, hsplit]
    exact hk
  · simp [hmidlen]

/-- C5 witness: a concrete instance — the 51 distinct keys "0" … "50"
inserted into the empty cache, and one bound-preservation instance. -/
theorem APIManager.setCache_fifo_eviction_witness :
    ((([] : List (String × APIManager.CacheEntry)).length ≤ 50) ∧
      ("0" :: (List.range 50).map (fun n => toString (n + 1))).Nodup ∧
      ((List.range 50).map (fun n => toString (n + 1))).length = 50) ∧
    ((APIManager.setCache [] "k" Json.null 0).length ≤ 50 ∧
      JsMap.get? (("0" :: (List.range 50).map (fun n => toString (n + 1))).foldl
        (fun acc k => APIManager.setCache acc k Json.null 0) []) "0" = none ∧
      (∀ k ∈ (List.range 50).map (fun n => toString (n + 1)),
        (JsMap.get? (("0" :: (List.range 50).map (fun n => toString (n + 1))).foldl
          (fun acc k => APIManager.setCache acc k Json.null 0) []) k).isSome) ∧
      (("0" :: (List.range 50).map (fun n => toString (n + 1))).foldl
        (fun acc k => APIManager.setCache acc k Json.null 0) []).length = 50) := by
  have h := APIManager.setCache_fifo_eviction
  have h1 := h.1 [] "k" Json.null 0 (by decide)
  have h2 := h.2 Json.null 0 "0"
    ((List.range 50).map (fun n => toString (n + 1)))
    (by decide) (by decide)
  exact ⟨⟨by decide, by decide, by decide⟩, h1, h2.1, h2.2.1, h2.2.2⟩

/-- C7: `Security.rateLimiter.check(action, ceiling)` implements a sliding
60-second window.  (i) In general: the pruned list (timestamps `t` with
`now - t < 60000`) is what survives; the call permits exactly when the
surviving count is below the ceiling; a denied attempt stores the pruned
list unchanged (the attempt is not recorded); a permitted attempt stores
the pruned list with `now` appended.  (ii) With ceiling 3, four calls in
one window yield `true, true, true, false`, and a fifth call 61 seconds
after the first yields `true` again. -/
theorem Security.rateLimiter.check_sliding_window :
    (∀ (actions : List (String × List Int)) (action : String)
        (maxPerMinute : Nat) (now : Int),
      ((Security.rateLimiter.check actions action maxPerMinute now).1 =
          true ↔
        (((JsMap.get? actions action).getD []).filter
          (fun t => now - t < 60000)).length < maxPerMinute) ∧
      ((Security.rateLimiter.check actions action maxPerMinute now).1 =
          false →
        (Security.rateLimiter.check actions action maxPerMinute now).2 =
          JsMap.set actions action
            (((JsMap.get? actions action).getD []).filter
              (fun t => now - t < 60000))) ∧
      ((Security.rateLimiter.check actions action maxPerMinute now).1 =
          true →
        (Security.rateLimiter.check actions action maxPerMinute now).2 =
          JsMap.set actions action
            ((((JsMap.get? actions action).getD []).filter
              (fun t => now - t < 60000)) ++ [now]))) ∧
    (∀ t1 t2 t3 t4 : Int, t1 ≤ t2 → t2 ≤ t3 → t3 ≤ t4 →
      t4 - t1 < 60000 →
      (Security.rateLimiter.runChecks [] "x" 3
        [t1, t2, t3, t4, t1 + 61000]).1 =
        [true, true, true, false, true]) := by
  constructor
  · intro actions action maxPerMinute now
    by_cases hc : (((JsMap.get? actions action).getD []).filter
        (fun t => now - t < 60000)).length ≥ maxPerMinute
    · refine ⟨?_, ?_, ?_⟩
      · simp [Security.rateLimiter.check, hc]
        try omega
      · intro _
        simp [Security.rateLimiter.check, hc]
      · intro hx
        rw [show (Security.rateLimiter.check actions action maxPerMinute
            now).1 = false by simp [Security.rateLimiter.check, hc]] at hx
        exact absurd hx (by simp)
    · refine ⟨?_, ?_, ?_⟩
      · simp [Security.rateLimiter.check, hc]
        try omega
      · intro hx
        rw [show (Security.rateLimiter.check actions action maxPerMinute
            now).1 = true by simp [Security.rateLimiter.check, hc]] at hx
        exact absurd hx (by simp)
      · intro _
        simp [Security.rateLimiter.check, hc]
  · intro t1 t2 t3 t4 h12 h23 h34 h41
    have k21 : t2 - t1 < 60000 := by omega
    have k31 : t3 - t1 < 60000 := by omega
    have k32 : t3 - t2 < 60000 := by omega
    have k41 : t4 - t1 < 60000 := by omega
    have k42 : t4 - t2 < 60000 := by omega
    have k43 : t4 - t3 < 60000 := by omega
    have k11 : t1 - t1 < 60000 := by omega
    have k22 : t2 - t2 < 60000 := by omega
    have k33 : t3 - t3 < 60000 := by omega
    have h1 : Security.rateLimiter.check [] "x" 3 t1 =
        (true, [("x", [t1])]) := by
      simp [Security.rateLimiter.check, JsMap.get?, JsMap.set]
    have h2 : Security.rateLimiter.check [("x", [t1])] "x" 3 t2 =
        (true, [("x", [t1, t2])]) := by
      simp [Security.rateLimiter.check, JsMap.get?, JsMap.set, k21]
    have h3 : Security.rateLimiter.check [("x", [t1, t2])] "x" 3 t3 =
        (true, [("x", [t1, t2, t3])]) := by
      simp [Security.rateLimiter.check, JsMap.get?, JsMap.set, k31, k32]
    have h4 : Security.rateLimiter.check [("x", [t1, t2, t3])] "x" 3 t4 =
        (false, [("x", [t1, t2, t3])]) := by
      simp [Security.rateLimiter.check, JsMap.get?, JsMap.set, k41, k42, k43]
    have k51 : ¬ (t1 + 61000 - t1 < 60000) := by omega
    have h5 : (Security.rateLimiter.check [("x", [t1, t2, t3])] "x" 3
        (t1 + 61000)).1 = true := by
      have hflt : List.filter (fun t => decide (t1 + 61000 - t < 60000))
          [t1, t2, t3] =
          List.filter (fun t => decide (t1 + 61000 - t < 60000)) [t2, t3] := by
        simp [List.filter_cons, k51]
      have hle : (List.filter (fun t => decide (t1 + 61000 - t < 60000))
          [t2, t3]).length ≤ 2 :=
        le_trans (List.length_filter_le _ _) (by simp)
      have hlt : ¬ ((List.filter (fun t => decide (t1 + 61000 - t < 60000))
          [t1, t2, t3]).length ≥ 3) := by
        rw [hflt]
        omega
      have hlt2 : ¬ ((List.filter (fun t => decide (t1 + 61000 - t < 60000))
          [t2, t3]).length ≥ 3) := by omega
      simp [Security.rateLimiter.check, JsMap.get?, hlt, hlt2]
    simp only [Security.rateLimiter.runChecks, h1, h2, h3, h4]
    simp [h5]

/-- C7 witness: a concrete instance — the general clause at an empty map,
and the window scenario at times 0, 1, 2, 3 (all within one window). -/
theorem Security.rateLimiter.check_sliding_window_witness :
    (((0 : Int) ≤ 1) ∧ ((1 : Int) ≤ 2) ∧ ((2 : Int) ≤ 3) ∧
      ((3 : Int) - 0 < 60000)) ∧
    (((Security.rateLimiter.check [] "search" 30 0).1 = true ↔
      (((JsMap.get? [] "search").getD []).filter
        (fun t => (0 : Int) - t < 60000)).length < 30) ∧
      (Security.rateLimiter.runChecks [] "x" 3
        [0, 1, 2, 3, 0 + 61000]).1 = [true, true, true, false, true]) := by
  have h := Security.rateLimiter.check_sliding_window
  exact ⟨⟨by decide, by decide, by decide, by decide⟩,
    (h.1 [] "search" 30 0).1,
    h.2 0 1 2 3 (by decide) (by decide) (by decide) (by decide)⟩

theorem GuestLimit.getSearchCount_stale (today : String)
    (ls : GuestLimit.LocalStorage) (hb : ls.broken = false)
    (hd : ls.date ≠ some today) :
    GuestLimit.getSearchCount today ls =
      (.val 0, ⟨false, some today, some "0"⟩) := by
  simp [GuestLimit.getSearchCount, GuestLimit.getSearchCountRaw,
    GuestLimit.getItem, GuestLimit.setItem, GuestLimit.STORAGE_KEY_DATE,
    GuestLimit.STORAGE_KEY_SEARCHES, hb, hd]

theorem GuestLimit.getSearchCount_today (today : String)
    (ls : GuestLimit.LocalStorage) (hb : ls.broken = false)
    (hd : ls.date = some today) :
    GuestLimit.getSearchCount today ls =
      (GuestLimit.parseIntJS (GuestLimit.jsOrZero ls.searches), ls) := by
  simp [GuestLimit.getSearchCount, GuestLimit.getSearchCountRaw,
    GuestLimit.getItem, GuestLimit.setItem, GuestLimit.STORAGE_KEY_DATE,
    GuestLimit.STORAGE_KEY_SEARCHES, hb, hd]

theorem GuestLimit.getSearchCount_broken (today : String)
    (ls : GuestLimit.LocalStorage) (hb : ls.broken = true) :
    GuestLimit.getSearchCount today ls = (.val 0, ls) := by
  simp [GuestLimit.getSearchCount, GuestLimit.getSearchCountRaw,
    GuestLimit.getItem, hb]

theorem GuestLimit.incrementCount_broken (today : String)
    (ls : GuestLimit.LocalStorage) (hb : ls.broken = true) :
    GuestLimit.incrementCount today ls = (.val 0, ls) := by
  simp [GuestLimit.incrementCount, GuestLimit.incrementCountRaw,
    GuestLimit.setItem, GuestLimit.getSearchCount_broken today ls hb, hb]

theorem GuestLimit.incrementCount_stale (today : String)
    (ls : GuestLimit.LocalStorage) (hb : ls.broken = false)
    (hd : ls.date ≠ some today) :
    GuestLimit.incrementCount today ls =
      (.val 1, ⟨false, some today, some "1"⟩) := by
  simp [GuestLimit.incrementCount, GuestLimit.incrementCountRaw,
    GuestLimit.getSearchCount_stale today ls hb hd, GuestLimit.setItem,
    GuestLimit.STORAGE_KEY_DATE, GuestLimit.STORAGE_KEY_SEARCHES,
    GuestLimit.JSNum.addOne, GuestLimit.JSNum.toStr]
  rfl

theorem GuestLimit.incrementCount_today (today : String)
    (ls : GuestLimit.LocalStorage) (hb : ls.broken = false)
    (hd : ls.date = some today) (c : String) (hs : ls.searches = some c) :
    GuestLimit.incrementCount today ls =
      ((GuestLimit.parseIntJS (GuestLimit.jsOrZero (some c))).addOne,
        ⟨false, ls.date,
          some ((GuestLimit.parseIntJS
            (GuestLimit.jsOrZero (some c))).addOne.toStr)⟩) := by
  simp [GuestLimit.incrementCount, GuestLimit.incrementCountRaw,
    GuestLimit.getSearchCount_today today ls hb hd, GuestLimit.setItem,
    GuestLimit.STORAGE_KEY_DATE, GuestLimit.STORAGE_KEY_SEARCHES, hb, hs]

/-- C8: `GuestLimit.canSearch` (the `checkAllowed` gate).  (i) A logged-in
caller is always allowed regardless of the persisted count.  (ii) For a
guest whose persisted date is today, the answer is exactly
"parsed persisted count < 3".  (iii) With a stale persisted date (for
example yesterday's, whatever count it carries) the stale count is
discarded and the guest is allowed.  (iv) Three `incrementCount` calls on a
fresh day leave a state in which the guest is denied. -/
theorem GuestLimit.canSearch_spec :
    (∀ (today : String) (ls : GuestLimit.LocalStorage),
      (GuestLimit.canSearch today true ls).1 = true) ∧
    (∀ (today : String) (ls : GuestLimit.LocalStorage) (c : String),
      ls.broken = false → ls.date = some today → ls.searches = some c →
      c ≠ "" →
      (GuestLimit.canSearch today false ls).1 =
        (GuestLimit.parseIntJS c).ltNat GuestLimit.GUEST_SEARCH_LIMIT) ∧
    (∀ (today : String) (ls : GuestLimit.LocalStorage),
      ls.broken = false → ls.date ≠ some today →
      (GuestLimit.canSearch today false ls).1 = true) ∧
    (∀ (today : String) (ls : GuestLimit.LocalStorage),
      ls.broken = false → ls.date ≠ some today →
      (GuestLimit.canSearch today false
        ((GuestLimit.incrementCount today
          ((GuestLimit.incrementCount today
            ((GuestLimit.incrementCount today ls).2)).2)).2)).1 = false) := by
  refine ⟨?_, ?_, ?_, ?_⟩
  · intro today ls
    simp [GuestLimit.canSearch]
  · intro today ls c hb hd hs hc
    simp [GuestLimit.canSearch,
      GuestLimit.getSearchCount_today today ls hb hd, hs,
      GuestLimit.jsOrZero, hc]
  · intro today ls hb hd
    simp [GuestLimit.canSearch,
      GuestLimit.getSearchCount_stale today ls hb hd,
      GuestLimit.JSNum.ltNat, GuestLimit.GUEST_SEARCH_LIMIT]
  · intro today ls hb hd
    have h1 := GuestLimit.incrementCount_stale today ls hb hd
    have h2 := GuestLimit.incrementCount_today today
      ⟨false, some today, some "1"⟩ rfl rfl "1" rfl
    have e2 : ((GuestLimit.parseIntJS
        (GuestLimit.jsOrZero (some "1"))).addOne) =
        GuestLimit.JSNum.val 2 := by decide
    have e2s : ((GuestLimit.parseIntJS
        (GuestLimit.jsOrZero (some "1"))).addOne).toStr = "2" := by decide
    rw [e2s, e2] at h2
    have h3 := GuestLimit.incrementCount_today today
      ⟨false, some today, some "2"⟩ rfl rfl "2" rfl
    have e3 : ((GuestLimit.parseIntJS
        (GuestLimit.jsOrZero (some "2"))).addOne) =
        GuestLimit.JSNum.val 3 := by decide
    have e3s : ((GuestLimit.parseIntJS
        (GuestLimit.jsOrZero (some "2"))).addOne).toStr = "3" := by decide
    rw [e3s, e3] at h3
    have e4 : (GuestLimit.parseIntJS
        (GuestLimit.jsOrZero (some "3"))).ltNat
        GuestLimit.GUEST_SEARCH_LIMIT = false := by decide
    simp [h1, h2, h3, GuestLimit.canSearch,
      GuestLimit.getSearchCount_today today
        ⟨false, some today, some "3"⟩ rfl rfl, e4]

/-- C9: storage failure fails open.  When every `localStorage` call throws
(`broken` store), `canSearch(false)` still returns `true` without throwing
(its only storage access sits under `getSearchCount`'s `try/catch`, so the
embedded function is total), and `incrementCount` swallows the exception
and returns the sentinel 0; the store is left untouched. -/
theorem GuestLimit.storage_failure_fail_open :
    ∀ (today : String) (ls : GuestLimit.LocalStorage), ls.broken = true →
      GuestLimit.canSearch today false ls = (true, ls) ∧
      GuestLimit.incrementCount today ls = (.val 0, ls) := by
  intro today ls hb
  constructor
  · simp [GuestLimit.canSearch,
      GuestLimit.getSearchCount_broken today ls hb,
      GuestLimit.JSNum.ltNat, GuestLimit.GUEST_SEARCH_LIMIT]
  · exact GuestLimit.incrementCount_broken today ls hb

/-- C10: reading the guest quota is not effect-free.  Whenever the
persisted date differs from today, `getSearchCount` — and therefore
`canSearch(false)` and `getRemainingSearches(false)`, which call it —
writes today's date and the count string "0" to the persistent store
before returning 0. -/
theorem GuestLimit.quota_check_mutates_store :
    ∀ (today : String) (ls : GuestLimit.LocalStorage),
      ls.broken = false → ls.date ≠ some today →
      GuestLimit.getSearchCount today ls =
        (.val 0, ⟨false, some today, some "0"⟩) ∧
      GuestLimit.canSearch today false ls =
        (true, ⟨false, some today, some "0"⟩) ∧
      (GuestLimit.getRemainingSearches today false ls).2 =
        ⟨false, some today, some "0"⟩ := by
  intro today ls hb hd
  refine ⟨GuestLimit.getSearchCount_stale today ls hb hd, ?_, ?_⟩
  · simp [GuestLimit.canSearch,
      GuestLimit.getSearchCount_stale today ls hb hd,
      GuestLimit.JSNum.ltNat, GuestLimit.GUEST_SEARCH_LIMIT]
  · simp [GuestLimit.getRemainingSearches,
      GuestLimit.getSearchCount_stale today ls hb hd]

/-- C8 witness: concrete instances of all four clauses, with yesterday's
exhausted state `(Mon, "3")` checked on Tuesday and on Monday. -/
theorem GuestLimit.canSearch_spec_witness :
    (((⟨false, some "Mon Oct 06 2025", some "3"⟩ :
        GuestLimit.LocalStorage).broken = false) ∧
      ((⟨false, some "Mon Oct 06 2025", some "3"⟩ :
        GuestLimit.LocalStorage).date ≠ some "Tue Oct 07 2025") ∧
      (("3" : String) ≠ "")) ∧
    ((GuestLimit.canSearch "Tue Oct 07 2025" true
        ⟨false, some "Mon Oct 06 2025", some "3"⟩).1 = true ∧
      (GuestLimit.canSearch "Tue Oct 07 2025" false
        ⟨false, some "Mon Oct 06 2025", some "3"⟩).1 = true ∧
      (GuestLimit.canSearch "Mon Oct 06 2025" false
        ⟨false, some "Mon Oct 06 2025", some "3"⟩).1 =
        (GuestLimit.parseIntJS "3").ltNat GuestLimit.GUEST_SEARCH_LIMIT ∧
      (GuestLimit.canSearch "Tue Oct 07 2025" false
        ((GuestLimit.incrementCount "Tue Oct 07 2025"
          ((GuestLimit.incrementCount "Tue Oct 07 2025"
            ((GuestLimit.incrementCount "Tue Oct 07 2025"
              ⟨false, some "Mon Oct 06 2025", some "3"⟩).2)).2)).2)).1 =
        false) :=
  ⟨⟨rfl, by decide, by decide⟩,
    GuestLimit.canSearch_spec.1 "Tue Oct 07 2025"
      ⟨false, some "Mon Oct 06 2025", some "3"⟩,
    GuestLimit.canSearch_spec.2.2.1 "Tue Oct 07 2025"
      ⟨false, some "Mon Oct 06 2025", some "3"⟩ rfl (by decide),
    GuestLimit.canSearch_spec.2.1 "Mon Oct 06 2025"
      ⟨false, some "Mon Oct 06 2025", some "3"⟩ "3" rfl rfl rfl (by decide),
    GuestLimit.canSearch_spec.2.2.2 "Tue Oct 07 2025"
      ⟨false, some "Mon Oct 06 2025", some "3"⟩ rfl (by decide)⟩

/-- C9 witness: a concrete instance over the broken store. -/
theorem GuestLimit.storage_failure_fail_open_witness :
    ((⟨true, none, none⟩ : GuestLimit.LocalStorage).broken = true) ∧
    (GuestLimit.canSearch "Tue Oct 07 2025" false ⟨true, none, none⟩ =
        (true, ⟨true, none, none⟩) ∧
      GuestLimit.incrementCount "Tue Oct 07 2025" ⟨true, none, none⟩ =
        (.val 0, ⟨true, none, none⟩)) :=
  ⟨rfl, GuestLimit.storage_failure_fail_open "Tue Oct 07 2025"
    ⟨true, none, none⟩ rfl⟩

/-- C10 witness: a concrete instance — a quota read on Tuesday over
Monday's persisted state mutates both keys. -/
theorem GuestLimit.quota_check_mutates_store_witness :
    (((⟨false, some "Mon Oct 06 2025", some "2"⟩ :
        GuestLimit.LocalStorage).broken = false) ∧
      ((⟨false, some "Mon Oct 06 2025", some "2"⟩ :
        GuestLimit.LocalStorage).date ≠ some "Tue Oct 07 2025")) ∧
    (GuestLimit.getSearchCount "Tue Oct 07 2025"
        ⟨false, some "Mon Oct 06 2025", some "2"⟩ =
        (.val 0, ⟨false, some "Tue Oct 07 2025", some "0"⟩) ∧
      GuestLimit.canSearch "Tue Oct 07 2025" false
        ⟨false, some "Mon Oct 06 2025", some "2"⟩ =
        (true, ⟨false, some "Tue Oct 07 2025", some "0"⟩) ∧
      (GuestLimit.getRemainingSearches "Tue Oct 07 2025" false
        ⟨false, some "Mon Oct 06 2025", some "2"⟩).2 =
        ⟨false, some "Tue Oct 07 2025", some "0"⟩) :=
  ⟨⟨rfl, by decide⟩,
    GuestLimit.quota_check_mutates_store "Tue Oct 07 2025"
      ⟨false, some "Mon Oct 06 2025", some "2"⟩ rfl (by decide)⟩
